import Mathlib

/-!
Verification development for the swh-scanner core: a shallow embedding of
`swh/scanner/client.py`, `swh/scanner/policy.py` and `swh/scanner/data.py`,
together with theorems about the batching client, the adaptive rate limiter,
the retry loop, the discovery policies and the node-info store.

Conventions of the embedding:
* Python ints are `ℤ` (or `ℕ` where the source only ever holds naturals),
  wall-clock floats are `ℝ`.
* A Python dict is an insertion-ordered association list built with
  `pyInsert` (overwrite on existing key, append otherwise).
* Exceptions are `Except` values.
* The remote archive is an oracle function from SWHID text to `Bool`.
-/

/-- Maximum number of SWHIDs per call to the known endpoint
(client.py, QUERY_LIMIT). -/
def QUERY_LIMIT : ℕ := 1000

/-- Retry budget per batch (client.py, MAX_RETRY). -/
def MAX_RETRY : ℕ := 10

/-- A CoreSWHID, abstracted to its textual form (its other fields never
matter to the scanner logic modelled here; equality of SWHIDs is equality
of their texts). -/
structure CoreSWHIDm where
  text : String
deriving DecidableEq

/-- str(swhid) in Python. -/
def strOfSWHID (s : CoreSWHIDm) : String := s.text

/-- client.py _get_chunk: slice a list into consecutive slices of size
QUERY_LIMIT (the last one possibly shorter). -/
def getChunk {α : Type} : List α → List (List α)
  | [] => []
  | x :: xs => (x :: xs).take QUERY_LIMIT :: getChunk ((x :: xs).drop QUERY_LIMIT)
termination_by l => l.length
decreasing_by
  have h : QUERY_LIMIT = 1000 := rfl
  simp only [List.length_drop, List.length_cons, h]
  omega

/-- Induction principle following the recursion of _get_chunk. -/
theorem getChunk_induction {α : Type} (P : List α → Prop) (h0 : P ([] : List α))
    (hstep : ∀ l : List α, l ≠ [] → P (l.drop QUERY_LIMIT) → P l) :
    ∀ l : List α, P l := by
  suffices H : ∀ (n : ℕ) (l : List α), l.length ≤ n → P l by
    intro l
    exact H l.length l le_rfl
  intro n
  induction n with
  | zero =>
    intro l hl
    have : l = [] := List.eq_nil_of_length_eq_zero (Nat.le_zero.mp hl)
    exact this ▸ h0
  | succ n ih =>
    intro l hl
    rcases l with _ | ⟨x, xs⟩
    · exact h0
    · refine hstep (x :: xs) (by simp) (ih _ ?_)
      have : QUERY_LIMIT = 1000 := rfl
      simp only [List.length_drop, List.length_cons] at *
      omega

theorem getChunk_nil {α : Type} : getChunk ([] : List α) = [] := by
  unfold getChunk
  rfl

theorem getChunk_ne_nil {α : Type} (x : α) (xs : List α) :
    getChunk (x :: xs) =
      (x :: xs).take QUERY_LIMIT :: getChunk ((x :: xs).drop QUERY_LIMIT) := by
  conv_lhs => unfold getChunk

/-- Each chunk produced by _get_chunk has at most QUERY_LIMIT elements. -/
theorem getChunk_length_le {α : Type} (l : List α) :
    ∀ c ∈ getChunk l, c.length ≤ QUERY_LIMIT := by
  induction l using getChunk_induction with
  | h0 => simp [getChunk_nil]
  | hstep l hl ih =>
    rcases l with _ | ⟨x, xs⟩
    · exact absurd rfl hl
    · rw [getChunk_ne_nil]
      intro c hc
      rcases List.mem_cons.mp hc with rfl | hc2
      · simp [List.length_take_le]
      · exact ih c hc2

/-- The concatenation of the chunks produced by _get_chunk is the input
list. -/
theorem getChunk_flatten {α : Type} (l : List α) :
    (getChunk l).flatten = l := by
  induction l using getChunk_induction with
  | h0 => simp [getChunk_nil]
  | hstep l hl ih =>
    rcases l with _ | ⟨x, xs⟩
    · exact absurd rfl hl
    · rw [getChunk_ne_nil]
      simp [ih]

/-- The keys of a dict, in order. -/
def dictKeys {α β : Type} (d : List (α × β)) : List α := d.map Prod.fst

/-- Python dict item assignment d[k] = v: overwrite the entry when the key
is present, append the pair otherwise (insertion order preserved). -/
def pyInsert {α β : Type} [DecidableEq α] (d : List (α × β)) (k : α) (v : β) :
    List (α × β) :=
  if k ∈ dictKeys d then
    d.map (fun p => if p.1 = k then (k, v) else p)
  else d ++ [(k, v)]

/-- Building a Python dict from a sequence of pairs (dict(pairs)): item
assignment for each pair in order, starting empty. -/
def pyDict {α β : Type} [DecidableEq α] (l : List (α × β)) : List (α × β) :=
  l.foldl (fun d p => pyInsert d p.1 p.2) []

/-- Python dict lookup d[k] (first matching entry; keys of a dict built by
pyInsert are pairwise distinct, so it is also the only one). -/
def lookupK {α β : Type} [DecidableEq α] : List (α × β) → α → Option β
  | [], _ => none
  | p :: d, k => if p.1 = k then some p.2 else lookupK d k

theorem dictKeys_overwrite {α β : Type} [DecidableEq α]
    (d : List (α × β)) (k : α) (v : β) :
    dictKeys (d.map (fun p => if p.1 = k then (k, v) else p)) = dictKeys d := by
  induction d with
  | nil => rfl
  | cons p d ih =>
    simp only [dictKeys, List.map_cons] at *
    by_cases hpk : p.1 = k
    · simp [hpk, ih]
    · simp [hpk, ih]

theorem mem_dictKeys_pyInsert {α β : Type} [DecidableEq α]
    (d : List (α × β)) (k : α) (v : β) (x : α) :
    x ∈ dictKeys (pyInsert d k v) ↔ x ∈ dictKeys d ∨ x = k := by
  unfold pyInsert
  by_cases h : k ∈ dictKeys d
  · rw [if_pos h, dictKeys_overwrite]
    constructor
    · exact Or.inl
    · rintro (hx | rfl)
      · exact hx
      · exact h
  · rw [if_neg h]
    simp only [dictKeys, List.map_append, List.map_cons, List.map_nil,
      List.mem_append, List.mem_singleton]

theorem lookupK_append {α β : Type} [DecidableEq α]
    (d1 d2 : List (α × β)) (x : α) :
    lookupK (d1 ++ d2) x =
      match lookupK d1 x with
      | some v => some v
      | none => lookupK d2 x := by
  induction d1 with
  | nil => simp [lookupK]
  | cons p d ih =>
    simp only [List.cons_append, lookupK]
    by_cases hp : p.1 = x
    · simp [hp]
    · simp [hp, ih]

theorem lookupK_overwrite {α β : Type} [DecidableEq α]
    (d : List (α × β)) (k : α) (v : β) (x : α) :
    lookupK (d.map (fun p => if p.1 = k then (k, v) else p)) x =
      if x = k then (if k ∈ dictKeys d then some v else none)
      else lookupK d x := by
  induction d with
  | nil => simp [lookupK, dictKeys]
  | cons p d ih =>
    by_cases hpk : p.1 = k
    · by_cases hxk : x = k
      · subst hxk
        have hm : x ∈ dictKeys (p :: d) := by
          simp [dictKeys, hpk]
        simp [lookupK, hpk, hm]
      · have hkx : ¬ ((k : α) = x) := fun hh => hxk hh.symm
        have hpx : ¬ (p.1 = x) := by
          rw [hpk]
          exact hkx
        simp only [List.map_cons, hpk, if_true, lookupK, hkx, if_false, ih,
          hxk, hpx]
    · by_cases hpx : p.1 = x
      · have hxk : ¬ (x = k) := fun hh => hpk (hpx.trans hh)
        simp only [List.map_cons, hpk, if_false, lookupK, hpx, if_true, hxk]
      · have hkp : ¬ ((k : α) = p.1) := fun hh => hpk hh.symm
        have hkeys : (k ∈ dictKeys (p :: d)) ↔ (k ∈ dictKeys d) := by
          simp [dictKeys, hkp]
        by_cases hxk : x = k
        · subst hxk
          simp only [List.map_cons, hpk, if_false, lookupK, hpx, ih, if_true]
          by_cases hkd : x ∈ dictKeys d
          · rw [if_pos hkd, if_pos (hkeys.mpr hkd)]
          · rw [if_neg hkd, if_neg (fun hh => hkd (hkeys.mp hh))]
        · simp only [List.map_cons, hpk, if_false, lookupK, hpx, ih, hxk]

theorem lookupK_notmem {α β : Type} [DecidableEq α]
    (d : List (α × β)) (x : α) (h : x ∉ dictKeys d) : lookupK d x = none := by
  induction d with
  | nil => rfl
  | cons p d ih =>
    have hcons : dictKeys (p :: d) = p.1 :: dictKeys d := rfl
    rw [hcons] at h
    have hp : ¬ (p.1 = x) := fun hh => h (List.mem_cons.mpr (Or.inl hh.symm))
    have hd : x ∉ dictKeys d := fun hh => h (List.mem_cons.mpr (Or.inr hh))
    simp only [lookupK, hp, if_false]
    exact ih hd

theorem lookupK_pyInsert {α β : Type} [DecidableEq α]
    (d : List (α × β)) (k : α) (v : β) (x : α) :
    lookupK (pyInsert d k v) x = if x = k then some v else lookupK d x := by
  unfold pyInsert
  by_cases h : k ∈ dictKeys d
  · rw [if_pos h, lookupK_overwrite]
    by_cases hxk : x = k
    · simp [hxk, h]
    · simp [hxk]
  · rw [if_neg h, lookupK_append]
    by_cases hxk : x = k
    · subst hxk
      rw [lookupK_notmem d x h]
      simp [lookupK]
    · have hkx : ¬ ((k : α) = x) := fun hh => hxk hh.symm
      cases hl : lookupK d x with
      | none => simp [lookupK, hkx, hxk]
      | some b => simp [hxk]

theorem dictKeys_nodup_pyInsert {α β : Type} [DecidableEq α]
    (d : List (α × β)) (k : α) (v : β) (h : (dictKeys d).Nodup) :
    (dictKeys (pyInsert d k v)).Nodup := by
  unfold pyInsert
  by_cases hk : k ∈ dictKeys d
  · rw [if_pos hk, dictKeys_overwrite]
    exact h
  · rw [if_neg hk]
    simp only [dictKeys, List.map_append] at *
    simp [List.nodup_append, h, hk]

theorem lookupK_mem {α β : Type} [DecidableEq α]
    (d : List (α × β)) (x : α) (b : β) (h : lookupK d x = some b) :
    (x, b) ∈ d := by
  induction d with
  | nil => exact absurd h (by simp [lookupK])
  | cons p d ih =>
    by_cases hp : p.1 = x
    · simp only [lookupK, hp, if_true, Option.some.injEq] at h
      subst h
      subst hp
      exact List.mem_cons_self _ _
    · simp only [lookupK, hp, if_false] at h
      exact List.mem_cons_of_mem _ (ih h)

theorem mem_dictKeys_lookupK {α β : Type} [DecidableEq α]
    (d : List (α × β)) (x : α) (h : x ∈ dictKeys d) :
    ∃ b, lookupK d x = some b := by
  induction d with
  | nil => exact absurd h (by simp [dictKeys])
  | cons p d ih =>
    by_cases hp : p.1 = x
    · exact ⟨p.2, by simp [lookupK, hp]⟩
    · have hd : x ∈ dictKeys d := by
        have hcons : dictKeys (p :: d) = p.1 :: dictKeys d := rfl
        rw [hcons] at h
        rcases List.mem_cons.mp h with hh | hh
        · exact absurd hh.symm hp
        · exact hh
      rcases ih hd with ⟨b, hb⟩
      exact ⟨b, by simp [lookupK, hp, hb]⟩

theorem pyInsert_all {α β : Type} [DecidableEq α] {P : α × β → Prop}
    {d : List (α × β)} {k : α} {v : β}
    (hd : ∀ p ∈ d, P p) (hkv : P (k, v)) : ∀ p ∈ pyInsert d k v, P p := by
  unfold pyInsert
  by_cases h : k ∈ dictKeys d
  · rw [if_pos h]
    intro p hp
    rcases List.mem_map.mp hp with ⟨q, hq, hqp⟩
    by_cases hqk : q.1 = k
    · rw [← hqp, if_pos hqk]
      exact hkv
    · rw [← hqp, if_neg hqk]
      exact hd q hq
  · rw [if_neg h]
    intro p hp
    rcases List.mem_append.mp hp with hp2 | hp2
    · exact hd p hp2
    · rw [List.mem_singleton.mp hp2]
      exact hkv

theorem pyDictFold_all {α β : Type} [DecidableEq α] {P : α × β → Prop} :
    ∀ (l d : List (α × β)), (∀ p ∈ d, P p) → (∀ p ∈ l, P p) →
    ∀ p ∈ l.foldl (fun d q => pyInsert d q.1 q.2) d, P p := by
  intro l
  induction l with
  | nil => intro d hd _; exact hd
  | cons q l ih =>
    intro d hd hl
    simp only [List.foldl_cons]
    refine ih (pyInsert d q.1 q.2)
      (pyInsert_all hd ?_) (fun p hp => hl p (List.mem_cons_of_mem _ hp))
    have hq := hl q (List.mem_cons_self _ _)
    simpa using hq

theorem pyDict_all {α β : Type} [DecidableEq α] {P : α × β → Prop}
    (l : List (α × β)) (hl : ∀ p ∈ l, P p) : ∀ p ∈ pyDict l, P p :=
  pyDictFold_all l [] (by simp) hl

theorem dictKeys_nodup_fold {α β : Type} [DecidableEq α] :
    ∀ (l d : List (α × β)), (dictKeys d).Nodup →
    (dictKeys (l.foldl (fun d q => pyInsert d q.1 q.2) d)).Nodup := by
  intro l
  induction l with
  | nil => intro d hd; exact hd
  | cons q l ih =>
    intro d hd
    simp only [List.foldl_cons]
    exact ih _ (dictKeys_nodup_pyInsert d q.1 q.2 hd)

theorem pyDict_keys_nodup {α β : Type} [DecidableEq α] (l : List (α × β)) :
    (dictKeys (pyDict l)).Nodup :=
  dictKeys_nodup_fold l [] (by simp [dictKeys])

theorem mem_dictKeys_fold {α β : Type} [DecidableEq α] :
    ∀ (l d : List (α × β)) (x : α),
    (x ∈ dictKeys (l.foldl (fun d q => pyInsert d q.1 q.2) d) ↔
      x ∈ dictKeys d ∨ x ∈ l.map Prod.fst) := by
  intro l
  induction l with
  | nil => intro d x; simp
  | cons q l ih =>
    intro d x
    simp only [List.foldl_cons, List.map_cons, List.mem_cons]
    rw [ih, mem_dictKeys_pyInsert]
    tauto

theorem mem_dictKeys_pyDict {α β : Type} [DecidableEq α]
    (l : List (α × β)) (x : α) :
    x ∈ dictKeys (pyDict l) ↔ x ∈ l.map Prod.fst := by
  rw [pyDict, mem_dictKeys_fold]
  simp [dictKeys]

theorem lookupK_eq_of_all {α β : Type} [DecidableEq α]
    (f : α → β) (d : List (α × β)) (hall : ∀ p ∈ d, p.2 = f p.1)
    (x : α) (hx : x ∈ dictKeys d) : lookupK d x = some (f x) := by
  rcases mem_dictKeys_lookupK d x hx with ⟨b, hb⟩
  have hmem := lookupK_mem d x b hb
  have := hall (x, b) hmem
  simp only at this
  rw [hb, this]

/-- Lookup in a dict built from pairs all of the form (s, f s): the answer
is f for keys present, none otherwise. -/
theorem lookupK_pyDict_fn {α β : Type} [DecidableEq α]
    (f : α → β) (l : List (α × β)) (hl : ∀ p ∈ l, p.2 = f p.1) (x : α) :
    lookupK (pyDict l) x = if x ∈ l.map Prod.fst then some (f x) else none := by
  by_cases hx : x ∈ l.map Prod.fst
  · rw [if_pos hx]
    exact lookupK_eq_of_all f (pyDict l) (pyDict_all l hl) x
      ((mem_dictKeys_pyDict l x).mpr hx)
  · rw [if_neg hx]
    exact lookupK_notmem _ _ (fun hh => hx ((mem_dictKeys_pyDict l x).mp hh))

/-- The JSON body returned by a 200 response of the known endpoint: a JSON
object mapping every queried SWHID text to its answer (spec section 6:
the response covers every input; the archive is the oracle O). -/
def makeRequestBody (O : String → Bool) (batch : List String) :
    List (String × Bool) :=
  pyDict (batch.map (fun s => (s, O s)))

/-- The batches of SWHID texts that Client.known hands to _make_request:
the whole list when it fits in QUERY_LIMIT, the slices of _get_chunk
otherwise (client.py, Client.known). -/
def knownBatches (swhids : List CoreSWHIDm) : List (List String) :=
  if swhids.length ≤ QUERY_LIMIT then [swhids.map strOfSWHID]
  else getChunk (swhids.map strOfSWHID)

/-- Client.known: the dictionary returned to the caller; for more than
QUERY_LIMIT inputs it is dict(itertools.chain(per-chunk dict items)). -/
def knownModel (O : String → Bool) (swhids : List CoreSWHIDm) :
    List (String × Bool) :=
  if swhids.length ≤ QUERY_LIMIT then
    makeRequestBody O (swhids.map strOfSWHID)
  else
    pyDict (((getChunk (swhids.map strOfSWHID)).map (makeRequestBody O)).flatten)

/-- C1: every batch that Client.known hands to _make_request has at most
QUERY_LIMIT = 1000 identifiers, the chunks of _get_chunk concatenate back
to the input list, and the dictionary returned by known has pairwise
distinct keys with exactly the textual forms of the input identifiers as
keys, each mapped to the oracle answer for it. -/
theorem known_batch_bound_and_mapping (O : String → Bool)
    (swhids : List CoreSWHIDm) :
    QUERY_LIMIT = 1000 ∧
    (∀ b ∈ knownBatches swhids, b.length ≤ QUERY_LIMIT) ∧
    ((getChunk (swhids.map strOfSWHID)).flatten = swhids.map strOfSWHID) ∧
    (dictKeys (knownModel O swhids)).Nodup ∧
    (∀ s : String, lookupK (knownModel O swhids) s =
      if s ∈ swhids.map strOfSWHID then some (O s) else none) := by
  refine ⟨rfl, ?_, getChunk_flatten _, ?_, ?_⟩
  · intro b hb
    unfold knownBatches at hb
    by_cases h : swhids.length ≤ QUERY_LIMIT
    · rw [if_pos h] at hb
      rw [List.mem_singleton.mp hb]
      simpa using h
    · rw [if_neg h] at hb
      exact getChunk_length_le _ b hb
  · unfold knownModel
    by_cases h : swhids.length ≤ QUERY_LIMIT
    · rw [if_pos h]
      exact pyDict_keys_nodup _
    · rw [if_neg h]
      exact pyDict_keys_nodup _
  · intro s
    unfold knownModel
    by_cases h : swhids.length ≤ QUERY_LIMIT
    · rw [if_pos h]
      unfold makeRequestBody
      rw [lookupK_pyDict_fn O]
      · have hkeys : ((swhids.map strOfSWHID).map (fun s => (s, O s))).map
            Prod.fst = swhids.map strOfSWHID := by
          simp
        rw [hkeys]
      · intro p hp
        rcases List.mem_map.mp hp with ⟨a, _, rfl⟩
        rfl
    · rw [if_neg h]
      rw [lookupK_pyDict_fn O]
      · have hiff : (s ∈ (((getChunk (swhids.map strOfSWHID)).map
            (makeRequestBody O)).flatten).map Prod.fst) ↔
            (s ∈ swhids.map strOfSWHID) := by
          constructor
          · intro hs
            rcases List.mem_map.mp hs with ⟨p, hp, rfl⟩
            rcases List.mem_flatten.mp hp with ⟨ch, hch, hpch⟩
            rcases List.mem_map.mp hch with ⟨c, hc, rfl⟩
            have : p.1 ∈ dictKeys (makeRequestBody O c) :=
              List.mem_map_of_mem Prod.fst hpch
            rw [makeRequestBody, mem_dictKeys_pyDict] at this
            rcases List.mem_map.mp this with ⟨q, hq, hq1⟩
            rcases List.mem_map.mp hq with ⟨a, ha, rfl⟩
            have hac : p.1 = a := by
              rw [← hq1]
            rw [hac]
            have := getChunk_flatten (swhids.map strOfSWHID)
            rw [← this]
            exact List.mem_flatten.mpr ⟨c, hc, ha⟩
          · intro hs
            have := getChunk_flatten (swhids.map strOfSWHID)
            rw [← this] at hs
            rcases List.mem_flatten.mp hs with ⟨c, hc, hsc⟩
            have hkc : s ∈ dictKeys (makeRequestBody O c) := by
              rw [makeRequestBody, mem_dictKeys_pyDict]
              exact List.mem_map.mpr ⟨(s, O s),
                List.mem_map.mpr ⟨s, hsc, rfl⟩, rfl⟩
            rcases List.mem_map.mp hkc with ⟨p, hp, hp1⟩
            exact List.mem_map.mpr ⟨p, List.mem_flatten.mpr
              ⟨makeRequestBody O c, List.mem_map_of_mem _ hc, hp⟩, hp1⟩
        simp only [hiff]
      · intro p hp
        rcases List.mem_flatten.mp hp with ⟨ch, hch, hpch⟩
        rcases List.mem_map.mp hch with ⟨c, _, rfl⟩
        refine @pyDict_all String Bool _ (fun q => q.2 = O q.1) _ ?_ p hpch
        intro q hq
        rcases List.mem_map.mp hq with ⟨a, _, rfl⟩
        rfl

/-- client.py Client._mark_success: the new value of self._sleep after a
successful response carrying the optional X-RateLimit header triple.
The method first resets the interval to zero, so the prior sleep value is
never read; with all three headers present and a window still open it
either waits out the window (no credit left), keeps the interval at zero
(more than 60 percent of the credit left) or applies the braking factor
(0.4 + used) ** -1.5 to the per-request share of the window. -/
noncomputable def markSuccess (_prevSleep : ℝ) (limit remaining reset : Option ℤ)
    (now : ℝ) : ℝ :=
  match limit, remaining, reset with
  | some l, some r, some t =>
    let timeWindows : ℝ := (t : ℝ) - now
    if 0 < timeWindows then
      let usedUp : ℝ := (r : ℝ) / (l : ℝ)
      if r ≤ 0 then timeWindows
      else
        let factor : ℝ :=
          if (0.6 : ℝ) < usedUp then 0
          else ((0.4 : ℝ) + usedUp) ^ (-(1.5 : ℝ))
        if 0 ≤ factor then (timeWindows / (r : ℝ)) * factor else 0
    else 0
  | _, _, _ => 0

/-- client.py Client._mark_failure: the new value of self._sleep after a
failed response. With the Remaining and Reset headers present, no credit
left and a window wait (with 10 percent margin) that is positive and at
least the current interval, the interval becomes that wait; in every other
case the interval backs off multiplicatively (1 if it was not positive,
twice its value otherwise). The Limit header is only used for logging. -/
noncomputable def markFailure (prevSleep : ℝ) (_limit remaining reset : Option ℤ)
    (now : ℝ) : ℝ :=
  match remaining, reset with
  | some r, some t =>
    if r ≤ 0 then
      let waitFor : ℝ := ((t : ℝ) - now) * 1.1
      if 0 < waitFor ∧ prevSleep ≤ waitFor then waitFor
      else if prevSleep ≤ 0 then 1 else prevSleep * 2
    else if prevSleep ≤ 0 then 1 else prevSleep * 2
  | _, _ => if prevSleep ≤ 0 then 1 else prevSleep * 2

/-- C2: after a successful response the sleep interval becomes 0 when the
header triple is incomplete or the reset time has passed; with the triple
present (and a positive advertised limit) and the reset time in the
future, it becomes ResetAt - now when no credit remains, 0 when more than
60 percent of the credit remains, and the braking formula otherwise. -/
theorem markSuccess_spec (s now : ℝ) (limit remaining reset : Option ℤ) :
    ((limit = none ∨ remaining = none ∨ reset = none) →
      markSuccess s limit remaining reset now = 0) ∧
    (∀ l r t : ℤ, limit = some l → remaining = some r → reset = some t →
      0 < l →
      (((t : ℝ) ≤ now → markSuccess s limit remaining reset now = 0) ∧
       (now < (t : ℝ) → r ≤ 0 →
          markSuccess s limit remaining reset now = (t : ℝ) - now) ∧
       (now < (t : ℝ) → (0.6 : ℝ) < (r : ℝ) / (l : ℝ) →
          markSuccess s limit remaining reset now = 0) ∧
       (now < (t : ℝ) → 0 < r → (r : ℝ) / (l : ℝ) ≤ (0.6 : ℝ) →
          markSuccess s limit remaining reset now =
            (((t : ℝ) - now) / (r : ℝ)) *
              ((0.4 : ℝ) + (r : ℝ) / (l : ℝ)) ^ (-(1.5 : ℝ))))) := by
  constructor
  · rintro (rfl | rfl | rfl)
    · cases remaining <;> cases reset <;> simp [markSuccess]
    · cases limit <;> cases reset <;> simp [markSuccess]
    · cases limit <;> cases remaining <;> simp [markSuccess]
  · intro l r t hl hr ht hlpos
    subst hl
    subst hr
    subst ht
    have hlR : (0 : ℝ) < (l : ℝ) := by exact_mod_cast hlpos
    refine ⟨?_, ?_, ?_, ?_⟩
    · intro htle
      have h1 : ¬ ((0 : ℝ) < (t : ℝ) - now) := by linarith
      simp [markSuccess, h1]
    · intro hlt hrle
      have h1 : (0 : ℝ) < (t : ℝ) - now := by linarith
      simp [markSuccess, h1, hrle]
    · intro hlt hgt
      have h1 : (0 : ℝ) < (t : ℝ) - now := by linarith
      have hrpos : ¬ (r ≤ 0) := by
        intro hh
        have hrR : (r : ℝ) ≤ 0 := by exact_mod_cast hh
        have : (r : ℝ) / (l : ℝ) ≤ 0 :=
          div_nonpos_of_nonpos_of_nonneg hrR hlR.le
        linarith
      simp [markSuccess, h1, hrpos, hgt]
    · intro hlt hrpos hle
      have h1 : (0 : ℝ) < (t : ℝ) - now := by linarith
      have hrle : ¬ (r ≤ 0) := not_le.mpr hrpos
      have hnot : ¬ ((0.6 : ℝ) < (r : ℝ) / (l : ℝ)) := not_lt.mpr hle
      have hrR : (0 : ℝ) < (r : ℝ) := by exact_mod_cast hrpos
      have hbase : (0 : ℝ) < (0.4 : ℝ) + (r : ℝ) / (l : ℝ) := by
        have : (0 : ℝ) < (r : ℝ) / (l : ℝ) := div_pos hrR hlR
        linarith
      have hfac : (0 : ℝ) ≤ ((0.4 : ℝ) + (r : ℝ) / (l : ℝ)) ^ (-(1.5 : ℝ)) :=
        (Real.rpow_pos_of_pos hbase _).le
      simp [markSuccess, h1, hrle, hnot, hfac]

/-- Witness for markSuccess_spec at limit 10, remaining 2, reset 100,
now 0, prior sleep 7: the braking branch applies. -/
theorem markSuccess_spec_witness :
    markSuccess 7 (some 10) (some 2) (some 100) 0 =
      ((((100 : ℤ) : ℝ) - 0) / ((2 : ℤ) : ℝ)) *
        ((0.4 : ℝ) + ((2 : ℤ) : ℝ) / ((10 : ℤ) : ℝ)) ^ (-(1.5 : ℝ)) :=
  ((markSuccess_spec 7 0 (some 10) (some 2) (some 100)).2 10 2 100 rfl rfl rfl
    (by norm_num)).2.2.2 (by norm_num) (by norm_num) (by norm_num)

/-- The C3 sentence is refuted by the code: with prior sleep 3, remaining
0 and a window of 1 second (reset 1, now 0) the code doubles the interval
to 6, whereas the claimed max(sleep, 1.1 (ResetAt - now)) would be 3. -/
theorem markFailure_claim_counterexample :
    markFailure 3 (some 5) (some 0) (some 1) 0 = 6 ∧
    ¬ (markFailure 3 (some 5) (some 0) (some 1) 0 =
        max 3 ((1.1 : ℝ) * (((1 : ℤ) : ℝ) - 0))) := by
  have h : markFailure 3 (some 5) (some 0) (some 1) 0 = 6 := by
    norm_num [markFailure]
  refine ⟨h, ?_⟩
  rw [h]
  have hmax : max (3 : ℝ) ((1.1 : ℝ) * (((1 : ℤ) : ℝ) - 0)) = 3 := by
    rw [max_eq_left]
    norm_num
  rw [hmax]
  norm_num

/-- C3 as amended: after a failed response, when the Remaining and Reset
headers are present, no credit remains and the margined window wait
1.1 (ResetAt - now) is positive and at least the current sleep interval,
the interval becomes that wait; in every other failure case the interval
becomes 1 when it was not positive and twice its value otherwise. -/
theorem markFailure_spec (s now : ℝ) (limit remaining reset : Option ℤ) :
    (∀ r t : ℤ, remaining = some r → reset = some t → r ≤ 0 →
      0 < ((t : ℝ) - now) * 1.1 → s ≤ ((t : ℝ) - now) * 1.1 →
      markFailure s limit remaining reset now = ((t : ℝ) - now) * 1.1) ∧
    ((¬ ∃ r t : ℤ, remaining = some r ∧ reset = some t ∧ r ≤ 0 ∧
        0 < ((t : ℝ) - now) * 1.1 ∧ s ≤ ((t : ℝ) - now) * 1.1) →
      markFailure s limit remaining reset now =
        if s ≤ 0 then 1 else s * 2) := by
  constructor
  · intro r t hr ht hr0 hpos hle
    subst hr
    subst ht
    simp only [markFailure, hr0, if_true]
    rw [if_pos ⟨hpos, hle⟩]
  · intro hnone
    cases remaining with
    | none => rfl
    | some r =>
      cases reset with
      | none => rfl
      | some t =>
        by_cases hr0 : r ≤ 0
        · by_cases hc : 0 < ((t : ℝ) - now) * 1.1 ∧ s ≤ ((t : ℝ) - now) * 1.1
          · exact absurd ⟨r, t, rfl, rfl, hr0, hc.1, hc.2⟩ hnone
          · simp only [markFailure, hr0, if_true]
            rw [if_neg hc]
        · simp only [markFailure, hr0, if_false]

/-- Witness for markFailure_spec: remaining 0, reset 10, now 0, prior
sleep 3; the margined wait 11 wins. -/
theorem markFailure_spec_witness :
    markFailure 3 (some 5) (some 0) (some 10) 0 = (((10 : ℤ) : ℝ) - 0) * 1.1 :=
  (markFailure_spec 3 0 (some 5) (some 0) (some 10)).1 0 10 rfl rfl le_rfl
    (by norm_num) (by norm_num)

/-- The known endpoint path (client.py KNOWN_EP, appended to the api url). -/
def KNOWN_EP : String := "known/"

/-- One HTTP response of the known endpoint as _make_request sees it:
status, reason, parsed JSON body (only read on status 200) and the
optional rate-limit headers. -/
structure HttpResponse where
  status : ℕ
  reason : String
  body : List (String × Bool)
  limit : Option ℤ
  remaining : Option ℤ
  reset : Option ℤ

/-- The structured error raised by exceptions.error_response: status code,
reason and endpoint. -/
structure APIErrorm where
  status : ℕ
  reason : String
  endpoint : String
deriving DecidableEq

/-- client.py Client._make_request retry loop over the stream of responses
(resps i is the response to the i-th POST of this batch). Each iteration
posts once; a 200 response returns its parsed body, otherwise the retry
counter is decremented and the loop raises once it reaches zero or the
status is 413, and retries otherwise. Returns the outcome together with
the number of POSTs issued. The fuel-zero branch is unreachable because
the loop is entered with retry = MAX_RETRY = 10 > 0. -/
def makeRequestGo (resps : ℕ → HttpResponse) (endpoint : String) :
    ℕ → ℕ → Except APIErrorm (List (String × Bool)) × ℕ
  | _, 0 => (Except.error ⟨0, "", endpoint⟩, 0)
  | i, retry+1 =>
    if (resps i).status = 200 then (Except.ok (resps i).body, 1)
    else if retry = 0 ∨ (resps i).status = 413 then
      (Except.error ⟨(resps i).status, (resps i).reason, endpoint⟩, 1)
    else
      let r := makeRequestGo resps endpoint (i+1) retry
      (r.1, r.2 + 1)

/-- Client._make_request for one batch: the retry loop started with the
full MAX_RETRY budget. -/
def makeRequestModel (resps : ℕ → HttpResponse) :
    Except APIErrorm (List (String × Bool)) × ℕ :=
  makeRequestGo resps KNOWN_EP 0 MAX_RETRY

theorem makeRequestGo_success (resps : ℕ → HttpResponse) (ep : String) :
    ∀ (j retry i : ℕ), j < retry →
    (∀ k < j, (resps (i + k)).status ≠ 200 ∧ (resps (i + k)).status ≠ 413) →
    ((resps (i + j)).status = 200 →
      makeRequestGo resps ep i retry = (Except.ok (resps (i + j)).body, j + 1)) ∧
    ((resps (i + j)).status = 413 →
      makeRequestGo resps ep i retry =
        (Except.error ⟨413, (resps (i + j)).reason, ep⟩, j + 1)) := by
  intro j
  induction j with
  | zero =>
    intro retry i hj hk
    rcases retry with _ | r
    · omega
    · constructor
      · intro h200
        simp only [Nat.add_zero] at h200
        simp [makeRequestGo, h200]
      · intro h413
        simp only [Nat.add_zero] at h413
        have hne : (resps i).status ≠ 200 := by
          rw [h413]
          decide
        simp [makeRequestGo, hne, h413]
  | succ j ih =>
    intro retry i hj hk
    rcases retry with _ | r
    · omega
    · have hr0 : r ≠ 0 := by omega
      have hhead := hk 0 (Nat.succ_pos j)
      rw [Nat.add_zero] at hhead
      have hshift : ∀ k < j, (resps (i + 1 + k)).status ≠ 200 ∧
          (resps (i + 1 + k)).status ≠ 413 := by
        intro k hkj
        have := hk (k + 1) (by omega)
        rwa [show i + (k + 1) = i + 1 + k by omega] at this
      have hji : i + 1 + j = i + (j + 1) := by omega
      have hih := ih r (i + 1) (by omega) hshift
      rw [hji] at hih
      constructor
      · intro h200
        have := hih.1 h200
        simp [makeRequestGo, hhead.1, hhead.2, hr0, this]
      · intro h413
        have := hih.2 h413
        simp [makeRequestGo, hhead.1, hhead.2, hr0, this]

theorem makeRequestGo_exhaust (resps : ℕ → HttpResponse) (ep : String) :
    ∀ (retry i : ℕ), 0 < retry →
    (∀ k < retry, (resps (i + k)).status ≠ 200 ∧ (resps (i + k)).status ≠ 413) →
    makeRequestGo resps ep i retry =
      (Except.error ⟨(resps (i + retry - 1)).status,
        (resps (i + retry - 1)).reason, ep⟩, retry) := by
  intro retry
  induction retry with
  | zero => omega
  | succ r ih =>
    intro i _ hk
    have hhead := hk 0 (Nat.succ_pos r)
    rw [Nat.add_zero] at hhead
    rcases Nat.eq_zero_or_pos r with rfl | hr
    · simp [makeRequestGo, hhead.1, hhead.2]
    · have hshift : ∀ k < r, (resps (i + 1 + k)).status ≠ 200 ∧
          (resps (i + 1 + k)).status ≠ 413 := by
        intro k hkr
        have := hk (k + 1) (by omega)
        rwa [show i + (k + 1) = i + 1 + k by omega] at this
      have hrec := ih (i + 1) hr hshift
      have hidx : i + 1 + r - 1 = i + (r + 1) - 1 := by omega
      rw [hidx] at hrec
      have hr0 : r ≠ 0 := by omega
      simp [makeRequestGo, hhead.1, hhead.2, hr0, hrec]

/-- C4: _make_request returns the parsed body of the first 200 response;
a 413 response raises the structured error immediately with no further
POST for the batch; other non-200 responses are retried, and after
MAX_RETRY = 10 consecutive non-200 responses the error is raised instead
of retried (exactly 10 POSTs are made). -/
theorem makeRequest_spec (resps : ℕ → HttpResponse) (j : ℕ) :
    MAX_RETRY = 10 ∧
    ((∀ i < j, (resps i).status ≠ 200 ∧ (resps i).status ≠ 413) →
      j < MAX_RETRY → (resps j).status = 200 →
      makeRequestModel resps = (Except.ok (resps j).body, j + 1)) ∧
    ((∀ i < j, (resps i).status ≠ 200 ∧ (resps i).status ≠ 413) →
      j < MAX_RETRY → (resps j).status = 413 →
      makeRequestModel resps =
        (Except.error ⟨413, (resps j).reason, KNOWN_EP⟩, j + 1)) ∧
    ((∀ i < MAX_RETRY, (resps i).status ≠ 200 ∧ (resps i).status ≠ 413) →
      makeRequestModel resps =
        (Except.error ⟨(resps (MAX_RETRY - 1)).status,
          (resps (MAX_RETRY - 1)).reason, KNOWN_EP⟩, MAX_RETRY)) := by
  refine ⟨rfl, ?_, ?_, ?_⟩
  · intro hk hj h200
    have := (makeRequestGo_success resps KNOWN_EP j MAX_RETRY 0 hj
      (by simpa using hk)).1 (by simpa using h200)
    simpa [makeRequestModel] using this
  · intro hk hj h413
    have := (makeRequestGo_success resps KNOWN_EP j MAX_RETRY 0 hj
      (by simpa using hk)).2 (by simpa using h413)
    simpa [makeRequestModel] using this
  · intro hk
    have := makeRequestGo_exhaust resps KNOWN_EP MAX_RETRY 0 (by decide)
      (by simpa using hk)
    simpa [makeRequestModel] using this

/-- A concrete response stream: one 500 failure, then 200 responses. -/
def respsEx : ℕ → HttpResponse := fun i =>
  if i = 0 then ⟨500, "ISE", [], none, none, none⟩
  else ⟨200, "OK", [("a", true)], none, none, none⟩

/-- Witness for makeRequest_spec: after one retried 500 the 200 body is
returned with exactly two POSTs. -/
theorem makeRequest_spec_witness :
    makeRequestModel respsEx = (Except.ok ((respsEx 1).body), 1 + 1) := by
  refine (makeRequest_spec respsEx 1).2.1 ?_ (by decide) (by rfl)
  intro i hi
  interval_cases i
  refine ⟨by decide, by decide⟩

/-!
The Merkle tree of from_disk nodes, as the policies see it. A node is a
content leaf or a directory with an ordered list of children; an identical
subtree appearing under several paths is re-instantiated per path, so two
nodes with the same SWHID may occur at different positions (spec section
3). SWHIDs are abstracted to labels in ℕ; the object kind is carried by
the constructor, as in reality two objects of different kinds never share
a SWHID. The parents list of an instance is its chain of ancestors on its
path, nearest first (parents[0] in merkle.MerkleNode).
-/

inductive MNode where
  | content (swhid : ℕ)
  | dir (swhid : ℕ) (children : List MNode)

def MNode.swhid : MNode → ℕ
  | .content s => s
  | .dir s _ => s

def MNode.isDir : MNode → Bool
  | .content _ => false
  | .dir _ _ => true

def MNode.children : MNode → List MNode
  | .content _ => []
  | .dir _ cs => cs

mutual
def MNode.beq : MNode → MNode → Bool
  | .content a, .content b => a == b
  | .dir a cs, .dir b ds => a == b && MNode.beqList cs ds
  | _, _ => false
termination_by structural n => n

def MNode.beqList : List MNode → List MNode → Bool
  | [], [] => true
  | c :: cs, d :: ds => MNode.beq c d && MNode.beqList cs ds
  | _, _ => false
termination_by structural l => l
end

mutual
theorem MNode.beq_iff : ∀ a b : MNode, MNode.beq a b = true ↔ a = b
  | .content a, .content b => by
    simp [MNode.beq]
  | .content a, .dir b ds => by
    simp [MNode.beq]
  | .dir a cs, .content b => by
    simp [MNode.beq]
  | .dir a cs, .dir b ds => by
    simp only [MNode.beq, Bool.and_eq_true, beq_iff_eq, MNode.dir.injEq]
    exact and_congr Iff.rfl (MNode.beqList_iff cs ds)
termination_by structural a => a

theorem MNode.beqList_iff : ∀ l m : List MNode, MNode.beqList l m = true ↔ l = m
  | [], [] => by simp [MNode.beqList]
  | [], d :: ds => by simp [MNode.beqList]
  | c :: cs, [] => by simp [MNode.beqList]
  | c :: cs, d :: ds => by
    simp only [MNode.beqList, Bool.and_eq_true, List.cons.injEq]
    exact and_congr (MNode.beq_iff c d) (MNode.beqList_iff cs ds)
termination_by structural l => l
end

instance : DecidableEq MNode := fun a b =>
  decidable_of_iff (MNode.beq a b = true) (MNode.beq_iff a b)

mutual
/-- Number of nodes of the tree, instances counted separately
(policy.py source_size counts iter_tree(dedup=False)). -/
def MNode.size : MNode → ℕ
  | .content _ => 1
  | .dir _ cs => 1 + MNode.sizeList cs
termination_by structural n => n

def MNode.sizeList : List MNode → ℕ
  | [] => 0
  | c :: cs => MNode.size c + MNode.sizeList cs
termination_by structural l => l
end

mutual
/-- iter_tree(dedup=False): every node instance, in preorder. -/
def iterND : MNode → List MNode
  | .content s => [.content s]
  | .dir s cs => .dir s cs :: iterNDList cs
termination_by structural n => n

def iterNDList : List MNode → List MNode
  | [] => []
  | c :: cs => iterND c ++ iterNDList cs
termination_by structural l => l
end

mutual
/-- merkle.MerkleNode.iter_tree(dedup=True) with an explicit seen set,
also recording for every yielded instance its chain of ancestor instances
(nearest first, the parents[0] chain of the yielded instance). A node
whose SWHID was already seen is skipped together with its whole subtree.
Returns the yielded (node, ancestors) pairs and the final seen set. -/
def iterLocAux : MNode → List MNode → List ℕ → (List (MNode × List MNode) × List ℕ)
  | .content s, path, seen =>
    if s ∈ seen then ([], seen)
    else ([(.content s, path)], s :: seen)
  | .dir s cs, path, seen =>
    if s ∈ seen then ([], seen)
    else
      let r := iterLocListAux cs (.dir s cs :: path) (s :: seen)
      ((.dir s cs, path) :: r.1, r.2)
termination_by structural n => n

def iterLocListAux : List MNode → List MNode → List ℕ → (List (MNode × List MNode) × List ℕ)
  | [], _, seen => ([], seen)
  | c :: cs, path, seen =>
    let r := iterLocAux c path seen
    let r2 := iterLocListAux cs path r.2
    (r.1 ++ r2.1, r2.2)
termination_by structural l => l
end

/-- iter_tree(dedup=True) on a fresh traversal: the yielded instances. -/
def iterTree (n : MNode) : List MNode :=
  (iterLocAux n [] []).1.map Prod.fst

/-- The yielded instances together with their ancestor chains. -/
def iterLoc (n : MNode) : List (MNode × List MNode) :=
  (iterLocAux n [] []).1

/-- policy.py source_size: the number of nodes, dedup=False. -/
def sourceSize (n : MNode) : ℕ := (iterND n).length

/-!
The node-info store as the policies use it: the "known" field keyed by
SWHID. A policy run is modelled by the chronological list of writes
data[swhid]["known"] = b it performs; the state of the store at any time
is the latest write for each key, starting from init_merkle_node_info
(every key at None).
-/

/-- The value of the known field after the given writes (last write wins;
none stands for the initial None of init_merkle_node_info). -/
def storeAfter : List (ℕ × Bool) → ℕ → Option Bool
  | [], _ => none
  | p :: tr, s =>
    match storeAfter tr s with
    | some b => some b
    | none => if p.1 = s then some p.2 else none

/-- Whether the write trace ever sets a key to true and later overwrites
it with false. -/
def hasTrueThenFalse : List (ℕ × Bool) → Bool
  | [] => false
  | (s, b) :: tr =>
    (b && tr.any (fun p => p.1 == s && p.2 == false)) || hasTrueThenFalse tr

/-- The archive oracle is monotone on the tree: whenever it answers true
for a node it answers true for every node of that subtree (the Merkle
property of the real archive, spec sections 4.F and 8). -/
def OracleMonotone (O : ℕ → Bool) (t : MNode) : Prop :=
  ∀ n ∈ iterND t, O n.swhid = true → ∀ m ∈ iterND n, O m.swhid = true

instance (O : ℕ → Bool) (t : MNode) : Decidable (OracleMonotone O t) :=
  List.decidableBAll _ (iterND t)

/-- The tree is Merkle coherent: two instances with the same SWHID are the
same value (the same bytes hash to the same identifier, and an identifier
determines the object). -/
def Coherent (t : MNode) : Prop :=
  ∀ a ∈ iterND t, ∀ b ∈ iterND t, a.swhid = b.swhid → a = b

instance (t : MNode) : Decidable (Coherent t) :=
  List.decidableBAll _ (iterND t)

/-!
policy.py LazyBFS.run: a queue of nodes, initially the root. Each round
queries the whole queue, writes each answer, enqueues the children of
unknown directories and marks the dedup subtree of known directories as
known. The fuel of lazyRunAux is bounded by the total size of the queue,
which strictly decreases every round, so size t fuel simulates the
unbounded Python loop exactly (lazyRunAux_fuel_irrelevant).
-/

/-- The writes performed for a known directory: every yielded node of
node.iter_tree() other than the node itself is set to known
(policy.py LazyBFS.run, else branch). -/
def lazyDescWrites (n : MNode) : List (ℕ × Bool) :=
  ((iterTree n).drop 1).map (fun m => (m.swhid, true))

/-- One round of LazyBFS over the queue copy: the writes of the round and
the queue for the next round. -/
def lazyProcess (O : ℕ → Bool) : List MNode → List (ℕ × Bool) × List MNode
  | [] => ([], [])
  | n :: rest =>
    let r := lazyProcess O rest
    if n.isDir then
      if O n.swhid then ((n.swhid, true) :: (lazyDescWrites n ++ r.1), r.2)
      else ((n.swhid, false) :: r.1, n.children ++ r.2)
    else ((n.swhid, O n.swhid) :: r.1, r.2)

def lazyRunAux (O : ℕ → Bool) : ℕ → List MNode → List (ℕ × Bool)
  | 0, _ => []
  | fuel+1, queue =>
    match queue with
    | [] => []
    | n :: rest =>
      (lazyProcess O (n :: rest)).1 ++
        lazyRunAux O fuel (lazyProcess O (n :: rest)).2

/-- LazyBFS.run on a source tree: the chronological write trace. -/
def lazyBFS (O : ℕ → Bool) (t : MNode) : List (ℕ × Bool) :=
  lazyRunAux O (MNode.size t) [t]

/-!
policy.py GreedyBFS.run: iter_tree(dedup=False) is chunked by QUERY_LIMIT
(swh.core.utils.grouper produces the same consecutive slices as
_get_chunk); each chunk is queried and written, then scanned: a counter of
seen nodes stops the whole run when it hits source_size exactly, and every
directory whose stored known value is truthy gets its whole dedup=False
subtree (minus itself) written to known.
-/

def truthy : Option Bool → Bool
  | some true => true
  | _ => false

/-- The writes of get_nodes_chunks for one chunk: each node receives its
oracle answer. -/
def greedyChunkAssign (O : ℕ → Bool) (chunk : List MNode) : List (ℕ × Bool) :=
  chunk.map (fun n => (n.swhid, O n.swhid))

/-- The GreedyBFS.run loop body over one chunk: threads the write trace,
the seen counter, and whether the run returned early. -/
def greedyProcessChunk (O : ℕ → Bool) (ssize : ℕ) :
    List MNode → ℕ → List (ℕ × Bool) → List (ℕ × Bool) × ℕ × Bool
  | [], c, tr => (tr, c, false)
  | n :: rest, c, tr =>
    if c + 1 = ssize then (tr, c + 1, true)
    else if n.isDir && truthy (storeAfter tr n.swhid) then
      let subs := (iterND n).drop 1
      greedyProcessChunk O ssize rest (c + 1 + subs.length)
        (tr ++ subs.map (fun m => (m.swhid, true)))
    else greedyProcessChunk O ssize rest (c + 1) tr

def greedyChunksRun (O : ℕ → Bool) (ssize : ℕ) :
    List (List MNode) → ℕ → List (ℕ × Bool) → List (ℕ × Bool)
  | [], _, tr => tr
  | ch :: rest, c, tr =>
    let r := greedyProcessChunk O ssize ch c (tr ++ greedyChunkAssign O ch)
    if r.2.2 then r.1 else greedyChunksRun O ssize rest r.2.1 r.1

/-- GreedyBFS.run on a source tree: the chronological write trace. -/
def greedyBFS (O : ℕ → Bool) (t : MNode) : List (ℕ × Bool) :=
  greedyChunksRun O (sourceSize t) (getChunk (iterND t)) 0 []

/-!
policy.py FilePriority.run: all contents (dedup iteration, reversed) are
queried and written; an unknown content sets its whole parents[0] chain to
unknown (an IndexError would escape if a content had no parent, which
cannot happen below a directory root). Then every directory still at None
is queried one by one; a known one propagates known to its still-unset
subdirectories.
-/

/-- Phase 1 of FilePriority over the located reversed contents; the Bool
is true when the run died with an IndexError (content without parents). -/
def fpPhase1 (O : ℕ → Bool) : List (MNode × List MNode) → List (ℕ × Bool) × Bool
  | [] => ([], false)
  | (c, anc) :: rest =>
    if O c.swhid then
      let r := fpPhase1 O rest
      ((c.swhid, true) :: r.1, r.2)
    else
      match anc with
      | [] => ([(c.swhid, false)], true)
      | _ :: _ =>
        let r := fpPhase1 O rest
        ((c.swhid, false) :: (anc.map (fun a => (a.swhid, false)) ++ r.1), r.2)

def fpPhase2 (O : ℕ → Bool) : List MNode → List (ℕ × Bool) → List (ℕ × Bool)
  | [], tr => tr
  | d :: rest, tr =>
    if storeAfter tr d.swhid = none then
      let tr1 := tr ++ [(d.swhid, O d.swhid)]
      if O d.swhid then
        let subs := (iterTree d).filter
          (fun m => m.isDir && decide (storeAfter tr1 m.swhid = none))
        fpPhase2 O rest (tr1 ++ subs.map (fun m => (m.swhid, true)))
      else fpPhase2 O rest tr1
    else fpPhase2 O rest tr

/-- The contents of the tree in FilePriority order: dedup iteration,
filtered to contents, deepest first (list reversed). -/
def fpContents (t : MNode) : List (MNode × List MNode) :=
  ((iterLoc t).filter (fun p => !p.1.isDir)).reverse

/-- The directories whose known value is still None after phase 1. -/
def fpUnsetDirs (t : MNode) (tr : List (ℕ × Bool)) : List MNode :=
  (iterTree t).filter (fun m => m.isDir && decide (storeAfter tr m.swhid = none))

/-- FilePriority.run: the write trace, and whether the run crashed. -/
def filePriority (O : ℕ → Bool) (t : MNode) : List (ℕ × Bool) × Bool :=
  let p1 := fpPhase1 O (fpContents t)
  if p1.2 then p1
  else (fpPhase2 O (fpUnsetDirs t p1.1) p1.1, false)

/-!
policy.py DirectoryPriority.run: all directories with at least one direct
file content (dedup iteration, reversed) are queried one by one if still
unset; a known one sets its direct contents to known, an unknown one sets
its parents[0] chain to unknown — dir_.parents[0] raises IndexError when
the unknown directory is the parentless root. Then the still-unset
directories without contents are batch queried, then the still-unset
contents.
-/

/-- merkle from_disk directory.entries contains a "file" entry iff some
direct child is a content (policy.py DirectoryPriority.has_contents). -/
def hasContents (n : MNode) : Bool := n.children.any (fun c => !c.isDir)

/-- DirectoryPriority.get_contents: the direct content children. -/
def directContents (n : MNode) : List MNode := n.children.filter (fun c => !c.isDir)

/-- Phase 1 of DirectoryPriority over the located reversed directories
with contents; the Bool is true when dir_.parents[0] raised (unknown
parentless root). -/
def dpPhase1 (O : ℕ → Bool) :
    List (MNode × List MNode) → List (ℕ × Bool) → List (ℕ × Bool) × Bool
  | [], tr => (tr, false)
  | (d, anc) :: rest, tr =>
    if storeAfter tr d.swhid = none then
      let tr1 := tr ++ [(d.swhid, O d.swhid)]
      if O d.swhid then
        dpPhase1 O rest (tr1 ++ (directContents d).map (fun c => (c.swhid, true)))
      else
        if anc = [] then (tr1, true)
        else dpPhase1 O rest (tr1 ++ anc.map (fun a => (a.swhid, false)))
    else dpPhase1 O rest tr

def dpDirs (t : MNode) : List (MNode × List MNode) :=
  ((iterLoc t).filter (fun p => p.1.isDir && hasContents p.1)).reverse

def dpEmptyDirs (t : MNode) (tr : List (ℕ × Bool)) : List MNode :=
  (iterTree t).filter (fun m => m.isDir && !hasContents m &&
    decide (storeAfter tr m.swhid = none))

def dpUnknownContents (t : MNode) (tr : List (ℕ × Bool)) : List MNode :=
  (iterTree t).filter (fun m => !m.isDir && decide (storeAfter tr m.swhid = none))

/-- DirectoryPriority.run: the write trace, and whether the run crashed
with the IndexError of dir_.parents[0] on the root. -/
def dirPriority (O : ℕ → Bool) (t : MNode) : List (ℕ × Bool) × Bool :=
  let p1 := dpPhase1 O (dpDirs t) []
  if p1.2 then p1
  else
    let tr2 := p1.1 ++ (dpEmptyDirs t p1.1).map (fun m => (m.swhid, O m.swhid))
    (tr2 ++ (dpUnknownContents t tr2).map (fun m => (m.swhid, O m.swhid)), false)

/-- policy.py QueryAll.run: every dedup-yielded node is queried and
written once. -/
def queryAll (O : ℕ → Bool) (t : MNode) : List (ℕ × Bool) :=
  (iterTree t).map (fun n => (n.swhid, O n.swhid))

/-- A Merkle-coherent tree in which the same content (SWHID 3) sits below
two different directories. -/
def exTree : MNode := .dir 0 [.dir 1 [.content 3], .dir 2 [.content 3]]

/-- An oracle that is consistent as a function of the SWHID but violates
Merkle monotonicity: directory 2 is known, its content 3 is not. -/
def exOracle : ℕ → Bool := fun s => s == 2

/-- C5 counterexample: with the (non-monotone) oracle exOracle, LazyBFS
first labels content 3 known = true while propagating below the known
directory 2, then overwrites it with false when the same content is
queried as a child of the unknown directory 1 — even though the tree is
Merkle coherent. -/
theorem lazyBFS_true_then_false_counterexample :
    hasTrueThenFalse (lazyBFS exOracle exTree) = true ∧ Coherent exTree := by
  constructor
  · decide
  · decide

theorem MNode.size_pos (n : MNode) : 1 ≤ n.size := by
  cases n with
  | content s => simp [MNode.size]
  | dir s cs => simp [MNode.size]

theorem MNode.sizeList_append (a b : List MNode) :
    MNode.sizeList (a ++ b) = MNode.sizeList a + MNode.sizeList b := by
  induction a with
  | nil => simp [MNode.sizeList]
  | cons c cs ih => simp [MNode.sizeList, ih]; ring

theorem self_mem_iterND (n : MNode) : n ∈ iterND n := by
  cases n with
  | content s => simp [iterND]
  | dir s cs => simp [iterND]

theorem mem_iterNDList_of_child {cs : List MNode} {c : MNode} (hc : c ∈ cs) :
    ∀ m ∈ iterND c, m ∈ iterNDList cs := by
  induction cs with
  | nil => cases hc
  | cons d ds ih =>
    intro m hm
    rcases List.mem_cons.mp hc with rfl | hc2
    · exact List.mem_append.mpr (Or.inl hm)
    · exact List.mem_append.mpr (Or.inr (ih hc2 m hm))

mutual
theorem iterND_trans : ∀ (n m k : MNode), m ∈ iterND n → k ∈ iterND m →
    k ∈ iterND n
  | .content s, m, k => by
    intro hm hk
    simp only [iterND, List.mem_singleton] at hm
    subst hm
    exact hk
  | .dir s cs, m, k => by
    intro hm hk
    simp only [iterND, List.mem_cons] at hm ⊢
    rcases hm with rfl | hm2
    · simp only [iterND, List.mem_cons] at hk
      exact hk
    · exact Or.inr (iterNDList_trans cs m k hm2 hk)
termination_by structural n => n

theorem iterNDList_trans : ∀ (cs : List MNode) (m k : MNode),
    m ∈ iterNDList cs → k ∈ iterND m → k ∈ iterNDList cs
  | [], m, k => by
    intro hm _
    simp [iterNDList] at hm
  | c :: cs, m, k => by
    intro hm hk
    simp only [iterNDList, List.mem_append] at hm ⊢
    rcases hm with hm1 | hm2
    · exact Or.inl (iterND_trans c m k hm1 hk)
    · exact Or.inr (iterNDList_trans cs m k hm2 hk)
termination_by structural cs => cs
end

theorem mem_iterND_of_mem_childrenList {n : MNode} {m : MNode}
    (hm : m ∈ iterNDList n.children) : m ∈ iterND n := by
  cases n with
  | content s => simp [MNode.children, iterNDList] at hm
  | dir s cs =>
    simp only [MNode.children] at hm
    simp only [iterND, List.mem_cons]
    exact Or.inr hm

theorem mem_iterND_of_child {n c : MNode} (hc : c ∈ n.children) :
    ∀ m ∈ iterND c, m ∈ iterND n := by
  intro m hm
  exact mem_iterND_of_mem_childrenList (mem_iterNDList_of_child hc m hm)

mutual
/-- Every pair yielded by the located dedup traversal consists of a node
of the subtree and an ancestor chain whose members are either in the
incoming path or proper ancestors inside the subtree. -/
theorem iterLocAux_mem : ∀ (n : MNode) (path : List MNode) (seen : List ℕ)
    (p : MNode × List MNode), p ∈ (iterLocAux n path seen).1 →
    p.1 ∈ iterND n ∧
    ∀ a ∈ p.2, a ∈ path ∨ (p.1 ∈ iterNDList a.children ∧ a ∈ iterND n)
  | .content s, path, seen, p => by
    intro hp
    simp only [iterLocAux] at hp
    by_cases hs : s ∈ seen
    · rw [if_pos hs] at hp
      simp at hp
    · rw [if_neg hs] at hp
      simp only [List.mem_singleton] at hp
      subst hp
      refine ⟨self_mem_iterND _, ?_⟩
      intro a ha
      exact Or.inl ha
  | .dir s cs, path, seen, p => by
    intro hp
    simp only [iterLocAux] at hp
    by_cases hs : s ∈ seen
    · rw [if_pos hs] at hp
      simp at hp
    · rw [if_neg hs] at hp
      simp only [List.mem_cons] at hp
      rcases hp with rfl | hp2
      · refine ⟨self_mem_iterND _, ?_⟩
        intro a ha
        exact Or.inl ha
      · have h := iterLocListAux_mem cs (MNode.dir s cs :: path) (s :: seen) p hp2
        refine ⟨?_, ?_⟩
        · exact mem_iterND_of_mem_childrenList (n := .dir s cs) h.1
        · intro a ha
          rcases h.2 a ha with hpath | hsub
          · rcases List.mem_cons.mp hpath with rfl | hpath2
            · exact Or.inr ⟨h.1, self_mem_iterND _⟩
            · exact Or.inl hpath2
          · exact Or.inr ⟨hsub.1,
              mem_iterND_of_mem_childrenList (n := .dir s cs) hsub.2⟩
termination_by structural n => n

theorem iterLocListAux_mem : ∀ (cs : List MNode) (path : List MNode)
    (seen : List ℕ) (p : MNode × List MNode), p ∈ (iterLocListAux cs path seen).1 →
    p.1 ∈ iterNDList cs ∧
    ∀ a ∈ p.2, a ∈ path ∨ (p.1 ∈ iterNDList a.children ∧ a ∈ iterNDList cs)
  | [], path, seen, p => by
    intro hp
    simp [iterLocListAux] at hp
  | c :: cs, path, seen, p => by
    intro hp
    simp only [iterLocListAux, List.mem_append] at hp
    rcases hp with hp1 | hp2
    · have h := iterLocAux_mem c path seen p hp1
      refine ⟨List.mem_append.mpr (Or.inl h.1), ?_⟩
      intro a ha
      rcases h.2 a ha with hpath | hsub
      · exact Or.inl hpath
      · exact Or.inr ⟨hsub.1, List.mem_append.mpr (Or.inl hsub.2)⟩
    · have h := iterLocListAux_mem cs path (iterLocAux c path seen).2 p hp2
      refine ⟨List.mem_append.mpr (Or.inr h.1), ?_⟩
      intro a ha
      rcases h.2 a ha with hpath | hsub
      · exact Or.inl hpath
      · exact Or.inr ⟨hsub.1, List.mem_append.mpr (Or.inr hsub.2)⟩
termination_by structural cs => cs
end

/-- Every node yielded by iter_tree(dedup=True) is an instance of the
tree, and every member of its ancestor chain is an instance that has the
node strictly below it. -/
theorem iterLoc_mem (t : MNode) (p : MNode × List MNode) (hp : p ∈ iterLoc t) :
    p.1 ∈ iterND t ∧
    ∀ a ∈ p.2, a ∈ iterND t ∧ p.1 ∈ iterNDList a.children := by
  have h := iterLocAux_mem t [] [] p hp
  refine ⟨h.1, ?_⟩
  intro a ha
  rcases h.2 a ha with hpath | hsub
  · simp at hpath
  · exact ⟨hsub.2, hsub.1⟩

theorem iterTree_sub (t : MNode) (m : MNode) (hm : m ∈ iterTree t) :
    m ∈ iterND t := by
  rcases List.mem_map.mp hm with ⟨p, hp, rfl⟩
  exact (iterLoc_mem t p hp).1

theorem storeAfter_mem {tr : List (ℕ × Bool)} {s : ℕ} {b : Bool}
    (h : storeAfter tr s = some b) : (s, b) ∈ tr := by
  induction tr with
  | nil => simp [storeAfter] at h
  | cons p tr ih =>
    simp only [storeAfter] at h
    cases hrec : storeAfter tr s with
    | some c =>
      rw [hrec] at h
      simp only [Option.some.injEq] at h
      subst h
      exact List.mem_cons_of_mem _ (ih hrec)
    | none =>
      rw [hrec] at h
      by_cases hp : p.1 = s
      · rw [if_pos hp] at h
        simp only [Option.some.injEq] at h
        subst h
        subst hp
        exact List.mem_cons_self _ _
      · rw [if_neg hp] at h
        cases h

theorem storeAfter_append (a b : List (ℕ × Bool)) (s : ℕ) :
    storeAfter (a ++ b) s =
      match storeAfter b s with
      | some v => some v
      | none => storeAfter a s := by
  induction a with
  | nil =>
    simp only [List.nil_append]
    cases hb : storeAfter b s <;> simp [storeAfter, hb]
  | cons p a ih =>
    simp only [List.cons_append, storeAfter]
    have ih2 : storeAfter (List.append a b) s =
        (match storeAfter b s with
         | some v => some v
         | none => storeAfter a s) := ih
    rw [ih2]
    cases hb : storeAfter b s with
    | some v => rfl
    | none =>
      cases ha : storeAfter a s with
      | some w => rfl
      | none => rfl

theorem storeAfter_oracle {O : ℕ → Bool} {tr : List (ℕ × Bool)}
    (hall : ∀ p ∈ tr, p.2 = O p.1) {s : ℕ} {b : Bool}
    (h : storeAfter tr s = some b) : b = O s := by
  have := hall (s, b) (storeAfter_mem h)
  simpa using this

/-- A trace whose every write records the oracle answer of its key never
sets a key to true and then to false. -/
theorem hasTrueThenFalse_of_oracle {O : ℕ → Bool} {tr : List (ℕ × Bool)}
    (hall : ∀ p ∈ tr, p.2 = O p.1) : hasTrueThenFalse tr = false := by
  induction tr with
  | nil => rfl
  | cons p tr ih =>
    rcases p with ⟨s, b⟩
    have hb : b = O s := by simpa using hall (s, b) (List.mem_cons_self _ _)
    have hrest : ∀ q ∈ tr, q.2 = O q.1 :=
      fun q hq => hall q (List.mem_cons_of_mem _ hq)
    simp only [hasTrueThenFalse, Bool.or_eq_false_iff, Bool.and_eq_false_iff]
    refine ⟨?_, ih hrest⟩
    by_cases hbv : b = true
    · right
      rw [List.any_eq_false]
      intro q hq
      have hq2 : q.2 = O q.1 := hrest q hq
      by_cases hqs : q.1 = s
      · have : q.2 = true := by rw [hq2, hqs, ← hb, hbv]
        simp [this]
      · simp [hqs]
    · left
      simpa using hbv

theorem mem_of_mem_getChunk {α : Type} {l : List α} {c : List α}
    (hc : c ∈ getChunk l) {x : α} (hx : x ∈ c) : x ∈ l := by
  rw [← getChunk_flatten l]
  exact List.mem_flatten.mpr ⟨c, hc, hx⟩

theorem lazyDescWrites_oracle {O : ℕ → Bool} {t : MNode}
    (hmono : OracleMonotone O t) {n : MNode} (hn : n ∈ iterND t)
    (hO : O n.swhid = true) :
    ∀ p ∈ lazyDescWrites n, p.2 = O p.1 := by
  intro p hp
  rcases List.mem_map.mp hp with ⟨m, hm, rfl⟩
  have hm2 : m ∈ iterTree n := List.mem_of_mem_drop hm
  have hm3 : m ∈ iterND n := iterTree_sub n m hm2
  have := hmono n hn hO m hm3
  simp [this]

theorem lazyProcess_oracle {O : ℕ → Bool} {t : MNode}
    (hmono : OracleMonotone O t) :
    ∀ q : List MNode, (∀ n ∈ q, n ∈ iterND t) →
    ((∀ p ∈ (lazyProcess O q).1, p.2 = O p.1) ∧
     (∀ n ∈ (lazyProcess O q).2, n ∈ iterND t)) := by
  intro q
  induction q with
  | nil => intro _; simp [lazyProcess]
  | cons n rest ih =>
    intro hq
    have hn : n ∈ iterND t := hq n (List.mem_cons_self _ _)
    have hrest := ih (fun m hm => hq m (List.mem_cons_of_mem _ hm))
    simp only [lazyProcess]
    by_cases hd : n.isDir
    · simp only [hd, if_true]
      cases hO : O n.swhid with
      | true =>
        simp only [if_true]
        constructor
        · intro p hp
          rcases List.mem_cons.mp hp with rfl | hp2
          · simp [hO]
          · rcases List.mem_append.mp hp2 with h1 | h2
            · exact lazyDescWrites_oracle hmono hn hO p h1
            · exact hrest.1 p h2
        · exact hrest.2
      | false =>
        simp only [Bool.false_eq_true, if_false]
        constructor
        · intro p hp
          rcases List.mem_cons.mp hp with rfl | hp2
          · simp [hO]
          · exact hrest.1 p hp2
        · intro m hm
          rcases List.mem_append.mp hm with h1 | h2
          · have hmn : m ∈ iterND n :=
              mem_iterND_of_child h1 m (self_mem_iterND m)
            exact iterND_trans t n m hn hmn
          · exact hrest.2 m h2
    · simp only [hd, Bool.false_eq_true, if_false]
      constructor
      · intro p hp
        rcases List.mem_cons.mp hp with rfl | hp2
        · rfl
        · exact hrest.1 p hp2
      · exact hrest.2

theorem lazyRunAux_oracle {O : ℕ → Bool} {t : MNode}
    (hmono : OracleMonotone O t) :
    ∀ (fuel : ℕ) (q : List MNode), (∀ n ∈ q, n ∈ iterND t) →
    ∀ p ∈ lazyRunAux O fuel q, p.2 = O p.1 := by
  intro fuel
  induction fuel with
  | zero => intro q _; simp [lazyRunAux]
  | succ f ih =>
    intro q hq
    cases q with
    | nil => simp [lazyRunAux]
    | cons n rest =>
      intro p hp
      simp only [lazyRunAux] at hp
      rcases List.mem_append.mp hp with h1 | h2
      · exact (lazyProcess_oracle hmono _ hq).1 p h1
      · exact ih _ (lazyProcess_oracle hmono _ hq).2 p h2

/-- Under a monotone oracle every write of a LazyBFS run records the
oracle answer of its key. -/
theorem lazyBFS_oracle {O : ℕ → Bool} {t : MNode}
    (hmono : OracleMonotone O t) : ∀ p ∈ lazyBFS O t, p.2 = O p.1 := by
  refine lazyRunAux_oracle hmono _ [t] ?_
  intro n hn
  rw [List.mem_singleton.mp hn]
  exact self_mem_iterND t

theorem greedyProcessChunk_oracle {O : ℕ → Bool} {t : MNode}
    (hmono : OracleMonotone O t) :
    ∀ (ch : List MNode) (ssize c : ℕ) (tr : List (ℕ × Bool)),
    (∀ n ∈ ch, n ∈ iterND t) → (∀ p ∈ tr, p.2 = O p.1) →
    ∀ p ∈ (greedyProcessChunk O ssize ch c tr).1, p.2 = O p.1 := by
  intro ch
  induction ch with
  | nil =>
    intro ssize c tr _ htr
    simpa [greedyProcessChunk] using htr
  | cons n rest ih =>
    intro ssize c tr hch htr
    have hn : n ∈ iterND t := hch n (List.mem_cons_self _ _)
    have hrest : ∀ m ∈ rest, m ∈ iterND t :=
      fun m hm => hch m (List.mem_cons_of_mem _ hm)
    simp only [greedyProcessChunk]
    by_cases hstop : c + 1 = ssize
    · rw [if_pos hstop]
      exact htr
    · rw [if_neg hstop]
      by_cases hprop : (n.isDir && truthy (storeAfter tr n.swhid)) = true
      · rw [if_pos hprop]
        have htruthy : truthy (storeAfter tr n.swhid) = true := by
          simp only [Bool.and_eq_true] at hprop
          exact hprop.2
        have hsome : storeAfter tr n.swhid = some true := by
          cases hst : storeAfter tr n.swhid with
          | none => rw [hst] at htruthy; cases htruthy
          | some b =>
            cases b with
            | false => rw [hst] at htruthy; cases htruthy
            | true => rfl
        have hOn : O n.swhid = true := by
          have := storeAfter_oracle htr hsome
          exact this.symm
        refine ih ssize _ _ hrest ?_
        intro p hp
        rcases List.mem_append.mp hp with h1 | h2
        · exact htr p h1
        · rcases List.mem_map.mp h2 with ⟨m, hm, rfl⟩
          have hm2 : m ∈ iterND n := List.mem_of_mem_drop hm
          have := hmono n hn hOn m hm2
          simp [this]
      · rw [if_neg hprop]
        exact ih ssize _ _ hrest htr

theorem greedyChunksRun_oracle {O : ℕ → Bool} {t : MNode}
    (hmono : OracleMonotone O t) :
    ∀ (chs : List (List MNode)) (ssize c : ℕ) (tr : List (ℕ × Bool)),
    (∀ ch ∈ chs, ∀ n ∈ ch, n ∈ iterND t) → (∀ p ∈ tr, p.2 = O p.1) →
    ∀ p ∈ greedyChunksRun O ssize chs c tr, p.2 = O p.1 := by
  intro chs
  induction chs with
  | nil =>
    intro ssize c tr _ htr
    simpa [greedyChunksRun] using htr
  | cons ch rest ih =>
    intro ssize c tr hchs htr
    have hch : ∀ n ∈ ch, n ∈ iterND t := hchs ch (List.mem_cons_self _ _)
    have htr1 : ∀ p ∈ tr ++ greedyChunkAssign O ch, p.2 = O p.1 := by
      intro p hp
      rcases List.mem_append.mp hp with h1 | h2
      · exact htr p h1
      · rcases List.mem_map.mp h2 with ⟨m, _, rfl⟩
        rfl
    have hres := greedyProcessChunk_oracle hmono ch ssize c _ hch htr1
    simp only [greedyChunksRun]
    by_cases hdone : (greedyProcessChunk O ssize ch c
        (tr ++ greedyChunkAssign O ch)).2.2 = true
    · rw [if_pos hdone]
      exact hres
    · rw [if_neg hdone]
      exact ih ssize _ _ (fun c2 hc2 => hchs c2 (List.mem_cons_of_mem _ hc2)) hres

/-- Under a monotone oracle every write of a GreedyBFS run records the
oracle answer of its key. -/
theorem greedyBFS_oracle {O : ℕ → Bool} {t : MNode}
    (hmono : OracleMonotone O t) : ∀ p ∈ greedyBFS O t, p.2 = O p.1 := by
  refine greedyChunksRun_oracle hmono _ _ 0 [] ?_ (by simp)
  intro ch hch n hn
  exact mem_of_mem_getChunk hch hn

/-- The located facts every element of a located dedup iteration enjoys. -/
def LocatedIn (t : MNode) (q : MNode × List MNode) : Prop :=
  q.1 ∈ iterND t ∧ ∀ a ∈ q.2, a ∈ iterND t ∧ q.1 ∈ iterNDList a.children

theorem locatedIn_of_mem_iterLoc {t : MNode} {q : MNode × List MNode}
    (hq : q ∈ iterLoc t) : LocatedIn t q := by
  have h := iterLoc_mem t q hq
  exact ⟨h.1, h.2⟩

/-- An ancestor of an instance whose subtree root the oracle rejects is
itself rejected by a monotone oracle. -/
theorem ancestor_oracle_false {O : ℕ → Bool} {t : MNode}
    (hmono : OracleMonotone O t) {d a : MNode} (ha : a ∈ iterND t)
    (hda : d ∈ iterNDList a.children) (hd : O d.swhid = false) :
    O a.swhid = false := by
  cases hOa : O a.swhid with
  | false => rfl
  | true =>
    have hdm : d ∈ iterND a := mem_iterND_of_mem_childrenList hda
    have := hmono a ha hOa d hdm
    rw [this] at hd
    cases hd

theorem fpPhase1_oracle {O : ℕ → Bool} {t : MNode}
    (hmono : OracleMonotone O t) :
    ∀ l : List (MNode × List MNode), (∀ q ∈ l, LocatedIn t q) →
    ∀ p ∈ (fpPhase1 O l).1, p.2 = O p.1 := by
  intro l
  induction l with
  | nil => intro _; simp [fpPhase1]
  | cons q rest ih =>
    intro hl
    rcases q with ⟨c, anc⟩
    have hq : LocatedIn t (c, anc) := hl _ (List.mem_cons_self _ _)
    have hrest := ih (fun q hq2 => hl q (List.mem_cons_of_mem _ hq2))
    simp only [fpPhase1]
    cases hO : O c.swhid with
    | true =>
      simp only [if_true]
      intro p hp
      rcases List.mem_cons.mp hp with rfl | hp2
      · simp [hO]
      · exact hrest p hp2
    | false =>
      simp only [Bool.false_eq_true, if_false]
      cases anc with
      | nil =>
        intro p hp
        rcases List.mem_singleton.mp hp with rfl
        simp [hO]
      | cons a anc2 =>
        intro p hp
        rcases List.mem_cons.mp hp with rfl | hp2
        · simp [hO]
        · rcases List.mem_append.mp hp2 with h1 | h2
          · rcases List.mem_map.mp h1 with ⟨b, hb, rfl⟩
            have hfact := hq.2 b hb
            have := ancestor_oracle_false hmono hfact.1 hfact.2 hO
            simp [this]
          · exact hrest p h2

theorem fpPhase2_oracle {O : ℕ → Bool} {t : MNode}
    (hmono : OracleMonotone O t) :
    ∀ (ds : List MNode) (tr : List (ℕ × Bool)),
    (∀ d ∈ ds, d ∈ iterND t) → (∀ p ∈ tr, p.2 = O p.1) →
    ∀ p ∈ fpPhase2 O ds tr, p.2 = O p.1 := by
  intro ds
  induction ds with
  | nil => intro tr _ htr; simpa [fpPhase2] using htr
  | cons d rest ih =>
    intro tr hds htr
    have hd : d ∈ iterND t := hds d (List.mem_cons_self _ _)
    have hrest : ∀ m ∈ rest, m ∈ iterND t :=
      fun m hm => hds m (List.mem_cons_of_mem _ hm)
    simp only [fpPhase2]
    by_cases hset : storeAfter tr d.swhid = none
    · rw [if_pos hset]
      have htr1 : ∀ p ∈ tr ++ [(d.swhid, O d.swhid)], p.2 = O p.1 := by
        intro p hp
        rcases List.mem_append.mp hp with h1 | h2
        · exact htr p h1
        · rcases List.mem_singleton.mp h2 with rfl
          rfl
      cases hO : O d.swhid with
      | true =>
        rw [hO] at htr1
        simp only [if_true]
        refine ih _ hrest ?_
        intro p hp
        rcases List.mem_append.mp hp with h1 | h2
        · exact htr1 p h1
        · rcases List.mem_map.mp h2 with ⟨m, hm, rfl⟩
          have hm2 : m ∈ iterTree d := List.mem_of_mem_filter hm
          have hm3 : m ∈ iterND d := iterTree_sub d m hm2
          have := hmono d hd hO m hm3
          simp [this]
      | false =>
        rw [hO] at htr1
        simp only [Bool.false_eq_true, if_false]
        exact ih _ hrest htr1
    · rw [if_neg hset]
      exact ih _ hrest htr

/-- Under a monotone oracle every write of a FilePriority run (crashed or
not) records the oracle answer of its key. -/
theorem filePriority_oracle {O : ℕ → Bool} {t : MNode}
    (hmono : OracleMonotone O t) : ∀ p ∈ (filePriority O t).1, p.2 = O p.1 := by
  have hloc : ∀ q ∈ fpContents t, LocatedIn t q := by
    intro q hq
    unfold fpContents at hq
    have hq2 := List.mem_reverse.mp hq
    exact locatedIn_of_mem_iterLoc (List.mem_of_mem_filter hq2)
  have hp1 := fpPhase1_oracle hmono (fpContents t) hloc
  unfold filePriority
  by_cases hcrash : (fpPhase1 O (fpContents t)).2 = true
  · rw [if_pos hcrash]
    exact hp1
  · rw [if_neg hcrash]
    refine fpPhase2_oracle hmono _ _ ?_ hp1
    intro d hd
    unfold fpUnsetDirs at hd
    exact iterTree_sub t d (List.mem_of_mem_filter hd)

theorem dpPhase1_oracle {O : ℕ → Bool} {t : MNode}
    (hmono : OracleMonotone O t) :
    ∀ (l : List (MNode × List MNode)) (tr : List (ℕ × Bool)),
    (∀ q ∈ l, LocatedIn t q) → (∀ p ∈ tr, p.2 = O p.1) →
    ∀ p ∈ (dpPhase1 O l tr).1, p.2 = O p.1 := by
  intro l
  induction l with
  | nil => intro tr _ htr; simpa [dpPhase1] using htr
  | cons q rest ih =>
    intro tr hl htr
    rcases q with ⟨d, anc⟩
    have hq : LocatedIn t (d, anc) := hl _ (List.mem_cons_self _ _)
    have hrest := fun tr2 htr2 =>
      ih tr2 (fun q hq2 => hl q (List.mem_cons_of_mem _ hq2)) htr2
    simp only [dpPhase1]
    by_cases hset : storeAfter tr d.swhid = none
    · rw [if_pos hset]
      have htr1 : ∀ p ∈ tr ++ [(d.swhid, O d.swhid)], p.2 = O p.1 := by
        intro p hp
        rcases List.mem_append.mp hp with h1 | h2
        · exact htr p h1
        · rcases List.mem_singleton.mp h2 with rfl
          rfl
      cases hO : O d.swhid with
      | true =>
        rw [hO] at htr1
        simp only [if_true]
        refine hrest _ ?_
        intro p hp
        rcases List.mem_append.mp hp with h1 | h2
        · exact htr1 p h1
        · rcases List.mem_map.mp h2 with ⟨c, hc, rfl⟩
          have hc2 : c ∈ d.children := List.mem_of_mem_filter hc
          have hc3 : c ∈ iterND d := mem_iterND_of_child hc2 c (self_mem_iterND c)
          have := hmono d hq.1 hO c hc3
          simp [this]
      | false =>
        rw [hO] at htr1
        simp only [Bool.false_eq_true, if_false]
        by_cases hanc : anc = []
        · rw [if_pos hanc]
          exact htr1
        · rw [if_neg hanc]
          refine hrest _ ?_
          intro p hp
          rcases List.mem_append.mp hp with h1 | h2
          · exact htr1 p h1
          · rcases List.mem_map.mp h2 with ⟨b, hb, rfl⟩
            have hfact := hq.2 b hb
            have := ancestor_oracle_false hmono hfact.1 hfact.2 hO
            simp [this]
    · rw [if_neg hset]
      exact hrest tr htr

/-- Under a monotone oracle every write of a DirectoryPriority run
(crashed or not) records the oracle answer of its key. -/
theorem dirPriority_oracle {O : ℕ → Bool} {t : MNode}
    (hmono : OracleMonotone O t) : ∀ p ∈ (dirPriority O t).1, p.2 = O p.1 := by
  have hloc : ∀ q ∈ dpDirs t, LocatedIn t q := by
    intro q hq
    unfold dpDirs at hq
    have hq2 := List.mem_reverse.mp hq
    exact locatedIn_of_mem_iterLoc (List.mem_of_mem_filter hq2)
  have hp1 := dpPhase1_oracle hmono (dpDirs t) [] hloc (by simp)
  unfold dirPriority
  by_cases hcrash : (dpPhase1 O (dpDirs t) []).2 = true
  · rw [if_pos hcrash]
    exact hp1
  · rw [if_neg hcrash]
    intro p hp
    rcases List.mem_append.mp hp with h1 | h2
    · rcases List.mem_append.mp h1 with h3 | h4
      · exact hp1 p h3
      · rcases List.mem_map.mp h4 with ⟨m, _, rfl⟩
        rfl
    · rcases List.mem_map.mp h2 with ⟨m, _, rfl⟩
      rfl

/-- Every write of a QueryAll run records the oracle answer of its key. -/
theorem queryAll_oracle {O : ℕ → Bool} {t : MNode} :
    ∀ p ∈ queryAll O t, p.2 = O p.1 := by
  intro p hp
  rcases List.mem_map.mp hp with ⟨m, _, rfl⟩
  rfl

/-- C5 as amended: against an oracle that respects Merkle monotonicity,
none of the five discovery policies ever sets a known field to true and
later overwrites it with false (the write trace of every run, including
the partial trace of a crashed FilePriority or DirectoryPriority run, is
free of true-then-false patterns). -/
theorem policies_monotone_known (O : ℕ → Bool) (t : MNode)
    (hmono : OracleMonotone O t) :
    hasTrueThenFalse (lazyBFS O t) = false ∧
    hasTrueThenFalse (greedyBFS O t) = false ∧
    hasTrueThenFalse ((filePriority O t).1) = false ∧
    hasTrueThenFalse ((dirPriority O t).1) = false ∧
    hasTrueThenFalse (queryAll O t) = false :=
  ⟨hasTrueThenFalse_of_oracle (lazyBFS_oracle hmono),
   hasTrueThenFalse_of_oracle (greedyBFS_oracle hmono),
   hasTrueThenFalse_of_oracle (filePriority_oracle hmono),
   hasTrueThenFalse_of_oracle (dirPriority_oracle hmono),
   hasTrueThenFalse_of_oracle (queryAll_oracle)⟩

/-- Witness for policies_monotone_known on the two-directory tree with a
monotone (all-true) oracle. -/
theorem policies_monotone_known_witness :
    OracleMonotone (fun _ => true) exTree ∧
    hasTrueThenFalse (lazyBFS (fun _ => true) exTree) = false ∧
    hasTrueThenFalse (greedyBFS (fun _ => true) exTree) = false ∧
    hasTrueThenFalse ((filePriority (fun _ => true) exTree).1) = false ∧
    hasTrueThenFalse ((dirPriority (fun _ => true) exTree).1) = false ∧
    hasTrueThenFalse (queryAll (fun _ => true) exTree) = false :=
  ⟨by decide, policies_monotone_known (fun _ => true) exTree (by decide)⟩

/-- The C6 failing input: a root directory holding one file, queried
against an archive that does not know the root. -/
def c6Tree : MNode := .dir 0 [.content 1]

/-- C6: on c6Tree with an all-false oracle, DirectoryPriority.run queries
the root, records known = false for it, and then dies in
dir_.parents[0] (IndexError on the parentless root) before the content is
ever labeled: the run does not complete and the content stays at None. -/
theorem dirPriority_crash_on_unknown_root :
    dirPriority (fun _ => false) c6Tree = ([(0, false)], true) ∧
    storeAfter (dirPriority (fun _ => false) c6Tree).1 1 = none := by
  constructor
  · decide
  · decide

theorem storeAfter_ne_none_iff (tr : List (ℕ × Bool)) (s : ℕ) :
    storeAfter tr s ≠ none ↔ s ∈ tr.map Prod.fst := by
  induction tr with
  | nil => simp [storeAfter]
  | cons p tr ih =>
    simp only [storeAfter, List.map_cons, List.mem_cons]
    cases hrec : storeAfter tr s with
    | some b =>
      have : s ∈ tr.map Prod.fst := ih.mp (by rw [hrec]; simp)
      simp [this]
    | none =>
      have hns : s ∉ tr.map Prod.fst := fun hh => (ih.mpr hh) hrec
      by_cases hp : p.1 = s
      · simp [hp, hns]
      · have : ¬ (s = p.1) := fun hh => hp hh.symm
        simp [hp, hns, this]

theorem storeAfter_append_ne_none {tr : List (ℕ × Bool)} {s : ℕ}
    (h : storeAfter tr s ≠ none) (ext : List (ℕ × Bool)) :
    storeAfter (tr ++ ext) s ≠ none := by
  rw [storeAfter_ne_none_iff] at h ⊢
  simp only [List.map_append, List.mem_append]
  exact Or.inl h

theorem storeAfter_append_ne_none_right (tr : List (ℕ × Bool)) {ext : List (ℕ × Bool)}
    {s : ℕ} (h : storeAfter ext s ≠ none) :
    storeAfter (tr ++ ext) s ≠ none := by
  rw [storeAfter_ne_none_iff] at h ⊢
  simp only [List.map_append, List.mem_append]
  exact Or.inr h

theorem mem_iterNDList_iff {cs : List MNode} {m : MNode} :
    m ∈ iterNDList cs ↔ ∃ c ∈ cs, m ∈ iterND c := by
  induction cs with
  | nil => simp [iterNDList]
  | cons c cs ih =>
    simp only [iterNDList, List.mem_append, ih, List.mem_cons]
    constructor
    · rintro (h1 | ⟨d, hd, hm⟩)
      · exact ⟨c, Or.inl rfl, h1⟩
      · exact ⟨d, Or.inr hd, hm⟩
    · rintro ⟨d, (rfl | hd), hm⟩
      · exact Or.inl hm
      · exact Or.inr ⟨d, hd, hm⟩

mutual
theorem mem_iterND_size_le : ∀ (n m : MNode), m ∈ iterND n →
    MNode.size m ≤ MNode.size n
  | .content s, m => by
    intro hm
    simp only [iterND, List.mem_singleton] at hm
    subst hm
    exact le_rfl
  | .dir s cs, m => by
    intro hm
    simp only [iterND, List.mem_cons] at hm
    rcases hm with rfl | hm2
    · exact le_rfl
    · have := mem_iterNDList_size_le cs m hm2
      simp only [MNode.size]
      omega
termination_by structural n => n

theorem mem_iterNDList_size_le : ∀ (cs : List MNode) (m : MNode),
    m ∈ iterNDList cs → MNode.size m ≤ MNode.sizeList cs
  | [], m => by
    intro hm
    simp [iterNDList] at hm
  | c :: cs, m => by
    intro hm
    simp only [iterNDList, List.mem_append] at hm
    rcases hm with h1 | h2
    · have := mem_iterND_size_le c m h1
      simp only [MNode.sizeList]
      omega
    · have := mem_iterNDList_size_le cs m h2
      simp only [MNode.sizeList]
      omega
termination_by structural cs => cs
end

/-- A node is never a strict descendant instance of itself. -/
theorem not_self_in_childrenList (n : MNode) : n ∉ iterNDList n.children := by
  intro h
  have hle := mem_iterNDList_size_le n.children n h
  cases n with
  | content s => simp [MNode.children, iterNDList] at h
  | dir s cs =>
    simp only [MNode.children] at hle
    simp only [MNode.size] at hle
    omega

theorem coherent_subtree {t n : MNode} (hcoh : Coherent t)
    (hn : n ∈ iterND t) : Coherent n := by
  intro a ha b hb hab
  exact hcoh a (iterND_trans t n a hn ha) b (iterND_trans t n b hn hb) hab

/-- The dedup traversal of a tree yields the tree itself first. -/
theorem iterTree_cons (n : MNode) : iterTree n = n :: (iterTree n).drop 1 := by
  cases n with
  | content s => rfl
  | dir s cs => rfl

/-- Every SWHID of the subtree is in the seen set. -/
def coveredBy (n : MNode) (seen : List ℕ) : Prop :=
  ∀ m ∈ iterND n, m.swhid ∈ seen

/-- The SWHID is that of an instance whose whole subtree is seen. -/
def ClosedSw (t : MNode) (seen : List ℕ) (s : ℕ) : Prop :=
  ∃ r, r ∈ iterND t ∧ r.swhid = s ∧ coveredBy r seen

/-- The invariant of the dedup traversal seen set: every seen SWHID is
either on the open ancestor path or closed (its subtree fully seen). -/
def SeenInv (t : MNode) (path : List MNode) (seen : List ℕ) : Prop :=
  ∀ s ∈ seen, s ∈ path.map MNode.swhid ∨ ClosedSw t seen s

theorem coveredBy_mono {n : MNode} {seen seen2 : List ℕ}
    (h : coveredBy n seen) (hs : ∀ x ∈ seen, x ∈ seen2) : coveredBy n seen2 :=
  fun m hm => hs _ (h m hm)

theorem closedSw_mono {t : MNode} {seen seen2 : List ℕ} {s : ℕ}
    (h : ClosedSw t seen s) (hs : ∀ x ∈ seen, x ∈ seen2) : ClosedSw t seen2 s := by
  rcases h with ⟨r, hr, hrs, hcov⟩
  exact ⟨r, hr, hrs, coveredBy_mono hcov hs⟩

mutual
/-- Master lemma of the dedup traversal on a coherent tree: the seen set
only grows, the subtree becomes fully seen, everything newly seen is a
yielded SWHID, and the seen invariant is preserved. -/
theorem iterLocAux_cover (t : MNode) (hcoh : Coherent t) :
    ∀ (n : MNode) (path : List MNode) (seen : List ℕ),
    n ∈ iterND t →
    (∀ a ∈ path, a ∈ iterND t ∧ n ∈ iterNDList a.children) →
    SeenInv t path seen →
    ((∀ x ∈ seen, x ∈ (iterLocAux n path seen).2) ∧
     coveredBy n (iterLocAux n path seen).2 ∧
     (∀ x ∈ (iterLocAux n path seen).2,
        x ∈ seen ∨ x ∈ (iterLocAux n path seen).1.map (fun p => p.1.swhid)) ∧
     SeenInv t path (iterLocAux n path seen).2)
  | .content s, path, seen => by
    intro hn hpath hseen
    by_cases hs : s ∈ seen
    · have hout : iterLocAux (.content s) path seen = ([], seen) := by
        simp [iterLocAux, hs]
      rw [hout]
      refine ⟨fun x hx => hx, ?_, fun x hx => Or.inl hx, hseen⟩
      intro m hm
      simp only [iterND, List.mem_singleton] at hm
      subst hm
      exact hs
    · have hout : iterLocAux (.content s) path seen =
          ([(.content s, path)], s :: seen) := by
        simp [iterLocAux, hs]
      rw [hout]
      refine ⟨fun x hx => List.mem_cons_of_mem _ hx, ?_, ?_, ?_⟩
      · intro m hm
        simp only [iterND, List.mem_singleton] at hm
        subst hm
        exact List.mem_cons_self _ _
      · intro x hx
        rcases List.mem_cons.mp hx with rfl | hx2
        · right
          simp [MNode.swhid]
        · exact Or.inl hx2
      · intro x hx
        rcases List.mem_cons.mp hx with rfl | hx2
        · right
          refine ⟨.content x, hn, rfl, ?_⟩
          intro m hm
          simp only [iterND, List.mem_singleton] at hm
          subst hm
          exact List.mem_cons_self _ _
        · rcases hseen x hx2 with hp | hc
          · exact Or.inl hp
          · exact Or.inr (closedSw_mono hc (fun y hy => List.mem_cons_of_mem _ hy))
  | .dir s cs, path, seen => by
    intro hn hpath hseen
    by_cases hs : s ∈ seen
    · have hout : iterLocAux (.dir s cs) path seen = ([], seen) := by
        simp [iterLocAux, hs]
      rw [hout]
      refine ⟨fun x hx => hx, ?_, fun x hx => Or.inl hx, hseen⟩
      rcases hseen s hs with hp | hc
      · rcases List.mem_map.mp hp with ⟨a, ha, has⟩
        have hfact := hpath a ha
        have heq : a = .dir s cs := by
          refine hcoh a hfact.1 (.dir s cs) hn ?_
          rw [has]
          rfl
        rw [heq] at hfact
        exact absurd hfact.2 (not_self_in_childrenList (.dir s cs))
      · rcases hc with ⟨r, hr, hrs, hcov⟩
        have heq : r = .dir s cs := by
          refine hcoh r hr (.dir s cs) hn ?_
          rw [hrs]
          rfl
        rw [heq] at hcov
        exact hcov
    · have hout : iterLocAux (.dir s cs) path seen =
          ((MNode.dir s cs, path) ::
            (iterLocListAux cs (MNode.dir s cs :: path) (s :: seen)).1,
           (iterLocListAux cs (MNode.dir s cs :: path) (s :: seen)).2) := by
        simp [iterLocAux, hs]
      have hcs : ∀ c ∈ cs, c ∈ iterND t ∧
          ∀ a ∈ (MNode.dir s cs :: path), a ∈ iterND t ∧
            c ∈ iterNDList a.children := by
        intro c hc
        have hcl : c ∈ iterNDList cs := mem_iterNDList_of_child hc c (self_mem_iterND c)
        have hcn : c ∈ iterND (.dir s cs) :=
          mem_iterND_of_mem_childrenList (n := .dir s cs) hcl
        refine ⟨iterND_trans t _ c hn hcn, ?_⟩
        intro a ha
        rcases List.mem_cons.mp ha with rfl | ha2
        · exact ⟨hn, hcl⟩
        · have hfact := hpath a ha2
          exact ⟨hfact.1, iterNDList_trans a.children (.dir s cs) c hfact.2 hcn⟩
      have hseen2 : SeenInv t (MNode.dir s cs :: path) (s :: seen) := by
        intro x hx
        rcases List.mem_cons.mp hx with rfl | hx2
        · left
          simp [MNode.swhid]
        · rcases hseen x hx2 with hp | hc
          · left
            simp only [List.map_cons, List.mem_cons]
            exact Or.inr hp
          · exact Or.inr (closedSw_mono hc (fun y hy => List.mem_cons_of_mem _ hy))
      have HL := iterLocListAux_cover t hcoh cs (MNode.dir s cs :: path)
        (s :: seen) hcs hseen2
      rw [hout]
      have hsub : ∀ x ∈ seen,
          x ∈ (iterLocListAux cs (MNode.dir s cs :: path) (s :: seen)).2 :=
        fun x hx => HL.1 x (List.mem_cons_of_mem _ hx)
      have hsmem : s ∈ (iterLocListAux cs (MNode.dir s cs :: path) (s :: seen)).2 :=
        HL.1 s (List.mem_cons_self _ _)
      have hcov : coveredBy (.dir s cs)
          (iterLocListAux cs (MNode.dir s cs :: path) (s :: seen)).2 := by
        intro m hm
        simp only [iterND, List.mem_cons] at hm
        rcases hm with rfl | hm2
        · exact hsmem
        · rcases mem_iterNDList_iff.mp hm2 with ⟨c, hc, hmc⟩
          exact HL.2.1 c hc m hmc
      refine ⟨hsub, hcov, ?_, ?_⟩
      · intro x hx
        rcases HL.2.2.1 x hx with hx2 | hx2
        · rcases List.mem_cons.mp hx2 with rfl | hx3
          · right
            simp [MNode.swhid]
          · exact Or.inl hx3
        · right
          simp only [List.map_cons, List.mem_cons]
          exact Or.inr hx2
      · intro x hx
        rcases HL.2.2.2 x hx with hp | hc
        · simp only [List.map_cons, List.mem_cons] at hp
          rcases hp with rfl | hp2
          · exact Or.inr ⟨.dir x cs, hn, rfl, hcov⟩
          · exact Or.inl hp2
        · exact Or.inr hc
termination_by structural n => n

theorem iterLocListAux_cover (t : MNode) (hcoh : Coherent t) :
    ∀ (cs : List MNode) (path : List MNode) (seen : List ℕ),
    (∀ c ∈ cs, c ∈ iterND t ∧
      ∀ a ∈ path, a ∈ iterND t ∧ c ∈ iterNDList a.children) →
    SeenInv t path seen →
    ((∀ x ∈ seen, x ∈ (iterLocListAux cs path seen).2) ∧
     (∀ c ∈ cs, coveredBy c (iterLocListAux cs path seen).2) ∧
     (∀ x ∈ (iterLocListAux cs path seen).2,
        x ∈ seen ∨ x ∈ (iterLocListAux cs path seen).1.map (fun p => p.1.swhid)) ∧
     SeenInv t path (iterLocListAux cs path seen).2)
  | [], path, seen => by
    intro _ hseen
    exact ⟨fun x hx => hx, by simp, fun x hx => Or.inl hx, hseen⟩
  | c :: cs, path, seen => by
    intro hcs hseen
    have hc := hcs c (List.mem_cons_self _ _)
    have H1 := iterLocAux_cover t hcoh c path seen hc.1 hc.2 hseen
    have H2 := iterLocListAux_cover t hcoh cs path (iterLocAux c path seen).2
      (fun d hd => hcs d (List.mem_cons_of_mem _ hd)) H1.2.2.2
    simp only [iterLocListAux]
    refine ⟨?_, ?_, ?_, H2.2.2.2⟩
    · intro x hx
      exact H2.1 x (H1.1 x hx)
    · intro d hd
      rcases List.mem_cons.mp hd with rfl | hd2
      · exact coveredBy_mono H1.2.1 H2.1
      · exact H2.2.1 d hd2
    · intro x hx
      rcases H2.2.2.1 x hx with hx2 | hx2
      · rcases H1.2.2.1 x hx2 with hx3 | hx3
        · exact Or.inl hx3
        · right
          simp only [List.map_append, List.mem_append]
          exact Or.inl hx3
      · right
        simp only [List.map_append, List.mem_append]
        exact Or.inr hx2
termination_by structural cs => cs
end

/-- On a coherent tree the dedup traversal yields the SWHID of every
instance of the tree. -/
theorem iterTree_covers (t : MNode) (hcoh : Coherent t) :
    ∀ m ∈ iterND t, m.swhid ∈ (iterTree t).map MNode.swhid := by
  have H := iterLocAux_cover t hcoh t [] [] (self_mem_iterND t)
    (by intro a ha; cases ha) (by intro x hx; cases hx)
  intro m hm
  have h2 := H.2.1 m hm
  rcases H.2.2.1 _ h2 with h3 | h3
  · cases h3
  · simpa [iterTree, List.map_map, Function.comp] using h3

theorem lazyProcess_key_mem (O : ℕ → Bool) :
    ∀ (q : List MNode), ∀ n ∈ q, n.swhid ∈ (lazyProcess O q).1.map Prod.fst := by
  intro q
  induction q with
  | nil => intro n hn; cases hn
  | cons h rest ih =>
    intro n hn
    simp only [lazyProcess]
    rcases List.mem_cons.mp hn with rfl | hn2
    · by_cases hd : n.isDir
      · simp only [hd, if_true]
        cases hO : O n.swhid <;> simp
      · simp only [hd, Bool.false_eq_true, if_false]
        simp
    · have := ih n hn2
      by_cases hd : h.isDir
      · simp only [hd, if_true]
        cases hO : O h.swhid
        · simp only [Bool.false_eq_true, if_false, List.map_cons, List.mem_cons]
          exact Or.inr this
        · simp only [if_true, List.map_cons, List.map_append, List.mem_cons,
            List.mem_append]
          exact Or.inr (Or.inr this)
      · simp only [hd, Bool.false_eq_true, if_false, List.map_cons, List.mem_cons]
        exact Or.inr this

theorem lazyProcess_known_dir_keys (O : ℕ → Bool) :
    ∀ (q : List MNode), ∀ n ∈ q, n.isDir = true → O n.swhid = true →
    ∀ x ∈ (iterTree n).map MNode.swhid, x ∈ (lazyProcess O q).1.map Prod.fst := by
  intro q
  induction q with
  | nil => intro n hn; cases hn
  | cons h rest ih =>
    intro n hn hd hO x hx
    simp only [lazyProcess]
    rcases List.mem_cons.mp hn with rfl | hn2
    · simp only [hd, if_true, hO, if_true, List.map_cons, List.map_append,
        List.mem_cons, List.mem_append]
      rw [iterTree_cons n, List.map_cons, List.mem_cons] at hx
      rcases hx with rfl | hx2
      · exact Or.inl rfl
      · right
        left
        unfold lazyDescWrites
        rw [List.map_map]
        simpa using hx2
    · have hrec := ih n hn2 hd hO x hx
      by_cases hhd : h.isDir
      · simp only [hhd, if_true]
        cases hOh : O h.swhid
        · simp only [Bool.false_eq_true, if_false, List.map_cons, List.mem_cons]
          exact Or.inr hrec
        · simp only [if_true, List.map_cons, List.map_append, List.mem_cons,
            List.mem_append]
          exact Or.inr (Or.inr hrec)
      · simp only [hhd, Bool.false_eq_true, if_false, List.map_cons, List.mem_cons]
        exact Or.inr hrec

theorem lazyProcess_unknown_children (O : ℕ → Bool) :
    ∀ (q : List MNode), ∀ n ∈ q, n.isDir = true → O n.swhid = false →
    ∀ c ∈ n.children, c ∈ (lazyProcess O q).2 := by
  intro q
  induction q with
  | nil => intro n hn; cases hn
  | cons h rest ih =>
    intro n hn hd hO c hc
    simp only [lazyProcess]
    rcases List.mem_cons.mp hn with rfl | hn2
    · simp only [hd, if_true, hO, Bool.false_eq_true, if_false]
      exact List.mem_append.mpr (Or.inl hc)
    · have hrec := ih n hn2 hd hO c hc
      by_cases hhd : h.isDir
      · simp only [hhd, if_true]
        cases hOh : O h.swhid
        · simp only [Bool.false_eq_true, if_false]
          exact List.mem_append.mpr (Or.inr hrec)
        · simp only [if_true]
          exact hrec
      · simp only [hhd, Bool.false_eq_true, if_false]
        exact hrec

theorem MNode.size_dir_eq {n : MNode} (hd : n.isDir = true) :
    MNode.size n = 1 + MNode.sizeList n.children := by
  cases n with
  | content s => cases hd
  | dir s cs => rfl

theorem lazyProcess_sizeList (O : ℕ → Bool) :
    ∀ q : List MNode,
    MNode.sizeList (lazyProcess O q).2 + q.length ≤ MNode.sizeList q := by
  intro q
  induction q with
  | nil => simp [lazyProcess, MNode.sizeList]
  | cons n rest ih =>
    simp only [lazyProcess, List.length_cons]
    have hpos := MNode.size_pos n
    by_cases hd : n.isDir
    · simp only [hd, if_true]
      cases hO : O n.swhid
      · simp only [Bool.false_eq_true, if_false]
        have heq := MNode.size_dir_eq hd
        have happ := MNode.sizeList_append n.children (lazyProcess O rest).2
        simp only [MNode.sizeList, happ]
        omega
      · simp only [if_true]
        simp only [MNode.sizeList]
        omega
    · simp only [hd, Bool.false_eq_true, if_false]
      simp only [MNode.sizeList]
      omega

/-- Totality of LazyBFS on a coherent tree under a monotone oracle: the
run writes an entry for the SWHID of every instance below every queue
member, provided the fuel covers the total queue size. -/
theorem lazyRunAux_total {O : ℕ → Bool} {t : MNode} (hcoh : Coherent t)
    (hmono : OracleMonotone O t) :
    ∀ (fuel : ℕ) (q : List MNode), MNode.sizeList q ≤ fuel →
    (∀ n ∈ q, n ∈ iterND t) →
    ∀ n ∈ q, ∀ m ∈ iterND n, m.swhid ∈ (lazyRunAux O fuel q).map Prod.fst := by
  intro fuel
  induction fuel with
  | zero =>
    intro q hq _ n hn
    cases q with
    | nil => cases hn
    | cons h rest =>
      exfalso
      have := MNode.size_pos h
      simp only [MNode.sizeList] at hq
      omega
  | succ f ih =>
    intro q hfuel hq n hn m hm
    cases q with
    | nil => cases hn
    | cons h rest =>
      simp only [lazyRunAux, List.map_append, List.mem_append]
      have hnd : n ∈ iterND t := hq n hn
      by_cases hd : n.isDir
      · cases hO : O n.swhid
        · -- unknown directory: itself written now, subtree via children later
          rcases n with ⟨s⟩ | ⟨s, cs⟩
          · cases hd
          · simp only [iterND, List.mem_cons] at hm
            rcases hm with rfl | hm2
            · exact Or.inl (lazyProcess_key_mem O _ _ hn)
            · rcases mem_iterNDList_iff.mp hm2 with ⟨c, hc, hmc⟩
              have hcq : c ∈ (lazyProcess O (h :: rest)).2 :=
                lazyProcess_unknown_children O _ _ hn hd hO c hc
              have hsz := lazyProcess_sizeList O (h :: rest)
              have hfuel2 : MNode.sizeList (lazyProcess O (h :: rest)).2 ≤ f := by
                simp only [MNode.sizeList, List.length_cons] at hsz hfuel ⊢
                have := MNode.size_pos h
                omega
              exact Or.inr (ih _ hfuel2
                (lazyProcess_oracle hmono _ hq).2 c hcq m hmc)
        · -- known directory: the whole dedup subtree is written now
          have hsub : m.swhid ∈ (iterTree n).map MNode.swhid :=
            iterTree_covers n (coherent_subtree hcoh hnd) m hm
          exact Or.inl (lazyProcess_known_dir_keys O _ _ hn hd hO _ hsub)
      · -- content: the only instance below n is n itself
        rcases n with ⟨s⟩ | ⟨s, cs⟩
        · simp only [iterND, List.mem_singleton] at hm
          subst hm
          exact Or.inl (lazyProcess_key_mem O _ _ hn)
        · cases hd rfl

/-- Totality of LazyBFS: on a coherent tree with a monotone oracle, every
instance of the tree ends with a non-None known value. -/
theorem lazyBFS_total {O : ℕ → Bool} {t : MNode} (hcoh : Coherent t)
    (hmono : OracleMonotone O t) :
    ∀ m ∈ iterND t, storeAfter (lazyBFS O t) m.swhid ≠ none := by
  intro m hm
  rw [storeAfter_ne_none_iff]
  refine lazyRunAux_total hcoh hmono (MNode.size t) [t] ?_ ?_ t ?_ m hm
  · simp [MNode.sizeList]
  · intro n hn
    rw [List.mem_singleton.mp hn]
    exact self_mem_iterND t
  · exact List.mem_singleton.mpr rfl

theorem dpPhase1_extends (O : ℕ → Bool) :
    ∀ (l : List (MNode × List MNode)) (tr : List (ℕ × Bool)),
    ∃ ext, (dpPhase1 O l tr).1 = tr ++ ext := by
  intro l
  induction l with
  | nil => intro tr; exact ⟨[], by simp [dpPhase1]⟩
  | cons q rest ih =>
    intro tr
    rcases q with ⟨d, anc⟩
    simp only [dpPhase1]
    by_cases hset : storeAfter tr d.swhid = none
    · rw [if_pos hset]
      by_cases hO : O d.swhid = true
      · rw [if_pos hO]
        rcases ih (tr ++ [(d.swhid, O d.swhid)] ++
          (directContents d).map (fun c => (c.swhid, true))) with ⟨ext, hext⟩
        exact ⟨[(d.swhid, O d.swhid)] ++
          (directContents d).map (fun c => (c.swhid, true)) ++ ext, by
            rw [hext]; simp⟩
      · rw [if_neg hO]
        by_cases hanc : anc = []
        · rw [if_pos hanc]
          exact ⟨[(d.swhid, O d.swhid)], rfl⟩
        · rw [if_neg hanc]
          rcases ih (tr ++ [(d.swhid, O d.swhid)] ++
            anc.map (fun a => (a.swhid, false))) with ⟨ext, hext⟩
          exact ⟨[(d.swhid, O d.swhid)] ++
            anc.map (fun a => (a.swhid, false)) ++ ext, by
              rw [hext]; simp⟩
    · rw [if_neg hset]
      exact ih tr

theorem dpPhase1_covers (O : ℕ → Bool) :
    ∀ (l : List (MNode × List MNode)) (tr : List (ℕ × Bool)),
    (dpPhase1 O l tr).2 = false →
    ∀ q ∈ l, storeAfter (dpPhase1 O l tr).1 q.1.swhid ≠ none := by
  intro l
  induction l with
  | nil => intro tr _ q hq; cases hq
  | cons q0 rest ih =>
    intro tr hflag q hq
    rcases q0 with ⟨d, anc⟩
    simp only [dpPhase1] at hflag ⊢
    by_cases hset : storeAfter tr d.swhid = none
    · rw [if_pos hset] at hflag ⊢
      by_cases hO : O d.swhid = true
      · rw [if_pos hO] at hflag ⊢
        rcases List.mem_cons.mp hq with hq1 | hq2
        · rcases dpPhase1_extends O rest (tr ++ [(d.swhid, O d.swhid)] ++
            (directContents d).map (fun c => (c.swhid, true))) with ⟨ext, hext⟩
          rw [hext, hq1]
          have h1 : storeAfter (tr ++ [(d.swhid, O d.swhid)]) d.swhid ≠ none := by
            rw [storeAfter_ne_none_iff]
            simp
          exact storeAfter_append_ne_none (storeAfter_append_ne_none h1 _) _
        · exact ih _ hflag q hq2
      · rw [if_neg hO] at hflag ⊢
        by_cases hanc : anc = []
        · rw [if_pos hanc] at hflag
          simp at hflag
        · rw [if_neg hanc] at hflag ⊢
          rcases List.mem_cons.mp hq with hq1 | hq2
          · rcases dpPhase1_extends O rest (tr ++ [(d.swhid, O d.swhid)] ++
              anc.map (fun a => (a.swhid, false))) with ⟨ext, hext⟩
            rw [hext, hq1]
            have h1 : storeAfter (tr ++ [(d.swhid, O d.swhid)]) d.swhid ≠ none := by
              rw [storeAfter_ne_none_iff]
              simp
            exact storeAfter_append_ne_none (storeAfter_append_ne_none h1 _) _
          · exact ih _ hflag q hq2
    · rw [if_neg hset] at hflag ⊢
      rcases List.mem_cons.mp hq with hq1 | hq2
      · rcases dpPhase1_extends O rest tr with ⟨ext, hext⟩
        rw [hext, hq1]
        exact storeAfter_append_ne_none hset ext
      · exact ih _ hflag q hq2

/-- A completed (non-crashed) DirectoryPriority run labels every yielded
node of the dedup traversal. -/
theorem dirPriority_total {O : ℕ → Bool} {t : MNode}
    (hdone : (dirPriority O t).2 = false) :
    ∀ y ∈ iterTree t, storeAfter (dirPriority O t).1 y.swhid ≠ none := by
  intro y hy
  have hp1flag : (dpPhase1 O (dpDirs t) []).2 = false := by
    by_cases hc : (dpPhase1 O (dpDirs t) []).2 = true
    · unfold dirPriority at hdone
      rw [if_pos hc] at hdone
      rw [hc] at hdone
      cases hdone
    · simpa using hc
  unfold dirPriority
  rw [if_neg (by rw [hp1flag]; simp)]
  simp only
  by_cases hcase : y.isDir = true ∧ hasContents y = true
  · -- phase 1 covered this node
    rcases List.mem_map.mp hy with ⟨p, hp, hpy⟩
    have hpd : p ∈ dpDirs t := by
      unfold dpDirs
      rw [List.mem_reverse]
      refine List.mem_filter.mpr ⟨hp, ?_⟩
      rw [hpy]
      simp [hcase.1, hcase.2]
    have := dpPhase1_covers O (dpDirs t) [] hp1flag p hpd
    rw [hpy] at this
    rw [List.append_assoc]
    exact storeAfter_append_ne_none this _
  · by_cases hdir : y.isDir = true
    · -- directory without contents: phase 2
      have hnc : hasContents y = false := by
        cases hhc : hasContents y
        · rfl
        · exact absurd ⟨hdir, hhc⟩ hcase
      by_cases hset : storeAfter (dpPhase1 O (dpDirs t) []).1 y.swhid = none
      · have hmem : y ∈ dpEmptyDirs t (dpPhase1 O (dpDirs t) []).1 := by
          unfold dpEmptyDirs
          refine List.mem_filter.mpr ⟨hy, ?_⟩
          simp [hdir, hnc, hset]
        have hkey : storeAfter ((dpPhase1 O (dpDirs t) []).1 ++
            (dpEmptyDirs t (dpPhase1 O (dpDirs t) []).1).map
              (fun m => (m.swhid, O m.swhid))) y.swhid ≠ none := by
          refine storeAfter_append_ne_none_right _ ?_
          rw [storeAfter_ne_none_iff]
          rw [List.map_map]
          refine List.mem_map.mpr ⟨y, hmem, rfl⟩
        exact storeAfter_append_ne_none hkey _
      · have h1 : storeAfter ((dpPhase1 O (dpDirs t) []).1 ++
            (dpEmptyDirs t (dpPhase1 O (dpDirs t) []).1).map
              (fun m => (m.swhid, O m.swhid))) y.swhid ≠ none :=
          storeAfter_append_ne_none hset _
        exact storeAfter_append_ne_none h1 _
    · -- content: phase 3
        have hcnt : y.isDir = false := by
          cases hhd : y.isDir
          · rfl
          · exact absurd hhd hdir
        by_cases hset : storeAfter ((dpPhase1 O (dpDirs t) []).1 ++
            (dpEmptyDirs t (dpPhase1 O (dpDirs t) []).1).map
              (fun m => (m.swhid, O m.swhid))) y.swhid = none
        · have hmem : y ∈ dpUnknownContents t
              ((dpPhase1 O (dpDirs t) []).1 ++
               (dpEmptyDirs t (dpPhase1 O (dpDirs t) []).1).map
                 (fun m => (m.swhid, O m.swhid))) := by
            unfold dpUnknownContents
            refine List.mem_filter.mpr ⟨hy, ?_⟩
            simp [hcnt, hset]
          refine storeAfter_append_ne_none_right _ ?_
          rw [storeAfter_ne_none_iff]
          rw [List.map_map]
          exact List.mem_map.mpr ⟨y, hmem, rfl⟩
        · exact storeAfter_append_ne_none hset _

/-- C7: on a coherent source tree with a monotone oracle, after a LazyBFS
run, and after a DirectoryPriority run that completed without crashing,
every directory whose known value is true has every node of its subtree
labeled known = true. -/
theorem known_dirs_descendants_known (O : ℕ → Bool) (t : MNode)
    (hcoh : Coherent t) (hmono : OracleMonotone O t) :
    (∀ D ∈ iterND t, D.isDir = true →
      storeAfter (lazyBFS O t) D.swhid = some true →
      ∀ m ∈ iterND D, storeAfter (lazyBFS O t) m.swhid = some true) ∧
    ((dirPriority O t).2 = false →
      ∀ D ∈ iterND t, D.isDir = true →
      storeAfter (dirPriority O t).1 D.swhid = some true →
      ∀ m ∈ iterND D, storeAfter (dirPriority O t).1 m.swhid = some true) := by
  constructor
  · intro D hD _ hDtrue m hm
    have hOD : O D.swhid = true :=
      (storeAfter_oracle (lazyBFS_oracle hmono) hDtrue).symm
    have hOm : O m.swhid = true := hmono D hD hOD m hm
    have hmt : m ∈ iterND t := iterND_trans t D m hD hm
    have hne := lazyBFS_total hcoh hmono m hmt
    cases hst : storeAfter (lazyBFS O t) m.swhid with
    | none => exact absurd hst hne
    | some b =>
      have hb : b = O m.swhid := storeAfter_oracle (lazyBFS_oracle hmono) hst
      rw [hb, hOm]
  · intro hdone D hD _ hDtrue m hm
    have hOD : O D.swhid = true :=
      (storeAfter_oracle (dirPriority_oracle hmono) hDtrue).symm
    have hOm : O m.swhid = true := hmono D hD hOD m hm
    have hmt : m ∈ iterND t := iterND_trans t D m hD hm
    have hcov := iterTree_covers t hcoh m hmt
    rcases List.mem_map.mp hcov with ⟨y, hy, hys⟩
    have hne := dirPriority_total hdone y hy
    rw [hys] at hne
    cases hst : storeAfter (dirPriority O t).1 m.swhid with
    | none => exact absurd hst hne
    | some b =>
      have hb : b = O m.swhid := storeAfter_oracle (dirPriority_oracle hmono) hst
      rw [hb, hOm]

/-- Witness for known_dirs_descendants_known: the root of exTree with the
all-true (monotone) oracle is labeled true by LazyBFS, hence so is its
whole subtree. -/
theorem known_dirs_descendants_known_witness :
    Coherent exTree ∧ OracleMonotone (fun _ => true) exTree ∧
    storeAfter (lazyBFS (fun _ => true) exTree) (MNode.swhid exTree) = some true ∧
    ∀ m ∈ iterND exTree,
      storeAfter (lazyBFS (fun _ => true) exTree) m.swhid = some true := by
  refine ⟨by decide, by decide, by decide, ?_⟩
  exact (known_dirs_descendants_known (fun _ => true) exTree (by decide)
    (by decide)).1 exTree (self_mem_iterND _) (by decide) (by decide)

/-!
data.py MerkleNodeInfo: a dict subclass whose __setitem__ validates that
keys are CoreSWHID instances and values are dicts. Python values are
modelled by a small universe of runtime-typed values; dict values are
heap references so that aliasing between records is observable.
-/

inductive PyKeyV where
  | swhidK (id : ℕ)
  | strK (s : String)
  | intK (n : ℤ)
  | noneK
deriving DecidableEq

inductive PyValV where
  | dictRef (r : ℕ)
  | strV (s : String)
  | intV (n : ℤ)
  | noneV
deriving DecidableEq

/-- isinstance(key, CoreSWHID) -/
def isSwhidKey : PyKeyV → Bool
  | .swhidK _ => true
  | _ => false

/-- isinstance(value, dict) -/
def isDictVal : PyValV → Bool
  | .dictRef _ => true
  | _ => false

/-- swh.model.exceptions.ValidationError, carrying its message. -/
structure ValidationErrorM where
  msg : String
deriving DecidableEq

/-- data.py MerkleNodeInfo.__setitem__: reject non-SWHID keys, then
non-dict values, otherwise store the pair. -/
def setItemMNI (st : List (PyKeyV × PyValV)) (k : PyKeyV) (v : PyValV) :
    Except ValidationErrorM (List (PyKeyV × PyValV)) :=
  if ¬ isSwhidKey k then Except.error ⟨"keys must be valid SWHID(s)"⟩
  else if ¬ isDictVal v then Except.error ⟨"values must be dict"⟩
  else Except.ok (pyInsert st k v)

/-- C9: assigning data[k] = v on a MerkleNodeInfo raises a
ValidationError when k is not a CoreSWHID or v is not a dict, and in
exactly those cases; otherwise the pair is stored and looking k up
returns v. -/
theorem setItemMNI_spec (st : List (PyKeyV × PyValV)) (k : PyKeyV) (v : PyValV) :
    ((isSwhidKey k = false ∨ isDictVal v = false) →
      ∃ e, setItemMNI st k v = Except.error e) ∧
    (isSwhidKey k = true → isDictVal v = true →
      setItemMNI st k v = Except.ok (pyInsert st k v) ∧
      lookupK (pyInsert st k v) k = some v) := by
  constructor
  · intro h
    unfold setItemMNI
    by_cases hk : isSwhidKey k = true
    · have hv : isDictVal v = false := by
        rcases h with h | h
        · rw [hk] at h
          cases h
        · exact h
      refine ⟨⟨"values must be dict"⟩, ?_⟩
      rw [if_neg (by simp [hk]), if_pos (by simp [hv])]
    · refine ⟨⟨"keys must be valid SWHID(s)"⟩, ?_⟩
      rw [if_pos (by simpa using hk)]
  · intro hk hv
    constructor
    · unfold setItemMNI
      rw [if_neg (by simp [hk]), if_neg (by simp [hv])]
    · rw [lookupK_pyInsert]
      simp

/-- Witness for setItemMNI_spec: storing a dict under a SWHID key
succeeds and is retrievable. -/
theorem setItemMNI_spec_witness :
    setItemMNI [] (PyKeyV.swhidK 5) (PyValV.dictRef 0) =
      Except.ok (pyInsert [] (PyKeyV.swhidK 5) (PyValV.dictRef 0)) ∧
    lookupK (pyInsert [] (PyKeyV.swhidK 5) (PyValV.dictRef 0))
      (PyKeyV.swhidK 5) = some (PyValV.dictRef 0) :=
  (setItemMNI_spec [] (PyKeyV.swhidK 5) (PyValV.dictRef 0)).2 rfl rfl

/-!
data.py init_merkle_node_info: for every node of source_tree.iter_tree()
the store receives nodes_info.copy() — a fresh dict whose known key is
None, with a provenance key (None) exactly when the provenance flag is
set. The copies are distinct objects: the heap model allocates a fresh
reference per node.
-/

/-- One record of init_merkle_node_info: the known field, and the
provenance field (outer none: key absent; some none: key present, None). -/
structure NodeRecord where
  known : Option Bool
  provenance : Option (Option ℕ)
deriving DecidableEq

/-- The record nodes_info.copy() starts from. -/
def initRecord (provenance : Bool) : NodeRecord :=
  ⟨none, if provenance then some none else none⟩

/-- The node-info store with its heap of record objects. -/
structure InitState where
  assoc : List (ℕ × ℕ)
  heap : List (ℕ × NodeRecord)
  nextRef : ℕ
deriving DecidableEq

/-- data.py init_merkle_node_info: iterate the dedup tree and store a
fresh copy of the template record for every node SWHID. -/
def initMerkleNodeInfo (t : MNode) (provenance : Bool) : InitState :=
  (iterTree t).foldl
    (fun st n =>
      ⟨pyInsert st.assoc n.swhid st.nextRef,
       pyInsert st.heap st.nextRef (initRecord provenance),
       st.nextRef + 1⟩)
    ⟨[], [], 0⟩

/-- Mutating the record object behind one reference. -/
def heapWrite (st : InitState) (r : ℕ) (rec : NodeRecord) : InitState :=
  ⟨st.assoc, pyInsert st.heap r rec, st.nextRef⟩

/-- The invariant of the initialization fold: every bound reference is
below the allocation counter, references are distinct across distinct
keys, and every bound reference holds the template record. -/
def InitInv (provenance : Bool) (st : InitState) : Prop :=
  (∀ s r, lookupK st.assoc s = some r → r < st.nextRef) ∧
  (∀ s1 s2 r, s1 ≠ s2 → lookupK st.assoc s1 = some r →
    lookupK st.assoc s2 = some r → False) ∧
  (∀ s r, lookupK st.assoc s = some r →
    lookupK st.heap r = some (initRecord provenance))

theorem initStep_inv {provenance : Bool} {st : InitState} (n : MNode)
    (h : InitInv provenance st) :
    InitInv provenance
      ⟨pyInsert st.assoc n.swhid st.nextRef,
       pyInsert st.heap st.nextRef (initRecord provenance),
       st.nextRef + 1⟩ := by
  obtain ⟨hlt, hinj, hrec⟩ := h
  refine ⟨?_, ?_, ?_⟩
  · intro s r hs
    dsimp only at hs ⊢
    rw [lookupK_pyInsert] at hs
    by_cases hsk : s = n.swhid
    · rw [if_pos hsk] at hs
      simp only [Option.some.injEq] at hs
      omega
    · rw [if_neg hsk] at hs
      have := hlt s r hs
      omega
  · intro s1 s2 r hne h1 h2
    dsimp only at h1 h2
    rw [lookupK_pyInsert] at h1 h2
    by_cases hk1 : s1 = n.swhid
    · rw [if_pos hk1] at h1
      simp only [Option.some.injEq] at h1
      have hk2 : ¬ (s2 = n.swhid) := fun hh => hne (hk1.trans hh.symm)
      rw [if_neg hk2] at h2
      have := hlt s2 r h2
      omega
    · rw [if_neg hk1] at h1
      by_cases hk2 : s2 = n.swhid
      · rw [if_pos hk2] at h2
        simp only [Option.some.injEq] at h2
        have := hlt s1 r h1
        omega
      · rw [if_neg hk2] at h2
        exact hinj s1 s2 r hne h1 h2
  · intro s r hs
    dsimp only at hs ⊢
    rw [lookupK_pyInsert] at hs
    rw [lookupK_pyInsert]
    by_cases hsk : s = n.swhid
    · rw [if_pos hsk] at hs
      simp only [Option.some.injEq] at hs
      rw [if_pos hs.symm]
    · rw [if_neg hsk] at hs
      have hlt2 := hlt s r hs
      rw [if_neg (by omega)]
      exact hrec s r hs

theorem initFold_inv (provenance : Bool) :
    ∀ (l : List MNode) (st : InitState), InitInv provenance st →
    InitInv provenance (l.foldl
      (fun st n =>
        ⟨pyInsert st.assoc n.swhid st.nextRef,
         pyInsert st.heap st.nextRef (initRecord provenance),
         st.nextRef + 1⟩) st) := by
  intro l
  induction l with
  | nil => intro st h; exact h
  | cons n rest ih =>
    intro st h
    exact ih _ (initStep_inv n h)

theorem initFold_covers (provenance : Bool) :
    ∀ (l : List MNode) (st : InitState) (n : MNode), n ∈ l ∨
      (∃ r, lookupK st.assoc n.swhid = some r) →
    ∃ r, lookupK (l.foldl
      (fun st n =>
        ⟨pyInsert st.assoc n.swhid st.nextRef,
         pyInsert st.heap st.nextRef (initRecord provenance),
         st.nextRef + 1⟩) st).assoc n.swhid = some r := by
  intro l
  induction l with
  | nil =>
    intro st n h
    rcases h with h | h
    · cases h
    · exact h
  | cons m rest ih =>
    intro st n h
    simp only [List.foldl_cons]
    refine ih _ n ?_
    by_cases hmem : n ∈ rest
    · exact Or.inl hmem
    · right
      rcases h with h | ⟨r, hr⟩
      · rcases List.mem_cons.mp h with rfl | h2
        · refine ⟨st.nextRef, ?_⟩
          rw [lookupK_pyInsert]
          simp
        · exact absurd h2 hmem
      · by_cases hsk : n.swhid = m.swhid
        · refine ⟨st.nextRef, ?_⟩
          rw [lookupK_pyInsert, if_pos hsk]
        · refine ⟨r, ?_⟩
          rw [lookupK_pyInsert, if_neg hsk]
          exact hr

/-- C10: after init_merkle_node_info on a coherent tree, every node SWHID
of the tree is mapped to a record with known = None whose provenance key
is present (as None) exactly when the provenance flag is set; distinct
SWHIDs hold distinct record objects, so mutating the record of one SWHID
leaves the record of every other SWHID unchanged. -/
theorem initMerkleNodeInfo_spec (t : MNode) (provenance : Bool)
    (hcoh : Coherent t) :
    (∀ m ∈ iterND t, ∃ r,
      lookupK (initMerkleNodeInfo t provenance).assoc m.swhid = some r ∧
      lookupK (initMerkleNodeInfo t provenance).heap r =
        some ⟨none, if provenance then some none else none⟩) ∧
    (∀ s1 s2 r1 r2,
      lookupK (initMerkleNodeInfo t provenance).assoc s1 = some r1 →
      lookupK (initMerkleNodeInfo t provenance).assoc s2 = some r2 →
      s1 ≠ s2 → r1 ≠ r2) ∧
    (∀ s1 s2 r1 r2 rec,
      lookupK (initMerkleNodeInfo t provenance).assoc s1 = some r1 →
      lookupK (initMerkleNodeInfo t provenance).assoc s2 = some r2 →
      s1 ≠ s2 →
      lookupK (heapWrite (initMerkleNodeInfo t provenance) r1 rec).heap r2 =
        lookupK (initMerkleNodeInfo t provenance).heap r2) := by
  have hbase : InitInv provenance ⟨[], [], 0⟩ := by
    refine ⟨?_, ?_, ?_⟩
    · intro s r h
      cases h
    · intro s1 s2 r hne h1 h2
      cases h1
    · intro s r h
      cases h
  have hinv : InitInv provenance (initMerkleNodeInfo t provenance) :=
    initFold_inv provenance (iterTree t) ⟨[], [], 0⟩ hbase
  obtain ⟨hlt, hinj, hrec⟩ := hinv
  have hdistinct : ∀ s1 s2 r1 r2,
      lookupK (initMerkleNodeInfo t provenance).assoc s1 = some r1 →
      lookupK (initMerkleNodeInfo t provenance).assoc s2 = some r2 →
      s1 ≠ s2 → r1 ≠ r2 := by
    intro s1 s2 r1 r2 h1 h2 hne heq
    subst heq
    exact hinj s1 s2 r1 hne h1 h2
  refine ⟨?_, hdistinct, ?_⟩
  · intro m hm
    have hcov := iterTree_covers t hcoh m hm
    rcases List.mem_map.mp hcov with ⟨y, hy, hys⟩
    have hex : ∃ r, lookupK (initMerkleNodeInfo t provenance).assoc
        y.swhid = some r :=
      initFold_covers provenance (iterTree t) ⟨[], [], 0⟩ y (Or.inl hy)
    rcases hex with ⟨r, hr⟩
    rw [hys] at hr
    exact ⟨r, hr, hrec m.swhid r hr⟩
  · intro s1 s2 r1 r2 rec h1 h2 hne
    have hr12 : r1 ≠ r2 := hdistinct s1 s2 r1 r2 h1 h2 hne
    unfold heapWrite
    simp only
    rw [lookupK_pyInsert, if_neg (fun hh => hr12 hh.symm)]

/-- Witness for initMerkleNodeInfo_spec on exTree with provenance on. -/
theorem initMerkleNodeInfo_spec_witness :
    Coherent exTree ∧
    (∃ r, lookupK (initMerkleNodeInfo exTree true).assoc
        (MNode.swhid exTree) = some r ∧
      lookupK (initMerkleNodeInfo exTree true).heap r =
        some ⟨none, if (true : Bool) then some none else none⟩) :=
  ⟨by decide, (initMerkleNodeInfo_spec exTree true (by decide)).1 exTree
    (self_mem_iterND _)⟩

/-!
data.py get_vcs_ignore_patterns and the three per-VCS pattern readers.
Bytes are lists of byte values; the subprocess call of _call_vcs either
returns stdout or raises subprocess.CalledProcessError (check=True),
which each reader catches, returning (False, []). Subversion output is
modelled from the ElementTree.fromstring boundary onwards (empty,
unparsable, or a parsed tree); parse failures on successful subprocess
output escape as Python runtime errors, exactly as in the source.
-/

inductive VCSKind where
  | git
  | hg
  | svn
deriving DecidableEq

/-- subprocess.CalledProcessError of a check=True run. -/
structure CalledProcessErrorM where
  returncode : ℤ
  stderr : List ℕ
deriving DecidableEq

inductive PyRuntimeError where
  | valueError
  | xmlParseError
  | assertionError
deriving DecidableEq

/-- Python bytes.split(sep): split on every occurrence of the separator
byte, keeping empty segments (empty input gives one empty segment). -/
def splitOnByte (sep : ℕ) : List ℕ → List (List ℕ)
  | [] => [[]]
  | b :: rest =>
    let r := splitOnByte sep rest
    if b = sep then [] :: r
    else
      match r with
      | [] => [[b]]
      | seg :: segs => (b :: seg) :: segs

/-- Python line.split(sep, 1) unpacked into two names: the parts before
and after the first separator, or a ValueError (none) if absent. -/
def splitFirstByte (sep : ℕ) : List ℕ → Option (List ℕ × List ℕ)
  | [] => none
  | b :: rest =>
    if b = sep then some ([], rest)
    else
      match splitFirstByte sep rest with
      | none => none
      | some (bef, aft) => some (b :: bef, aft)

/-- Python bytes.rstrip of one byte value. -/
def rstripByte (c : ℕ) (l : List ℕ) : List ℕ :=
  (l.reverse.dropWhile (fun b => b == c)).reverse

/-- The git status -z line loop: skip empty lines, unpack on the first
space (ValueError if missing), keep lines whose status is b"!!" with the
name stripped of trailing slashes. -/
def gitParseLines : List (List ℕ) → Except PyRuntimeError (List (List ℕ))
  | [] => Except.ok []
  | line :: rest =>
    if line = [] then gitParseLines rest
    else
      match splitFirstByte 32 line with
      | none => Except.error PyRuntimeError.valueError
      | some (status, name) =>
        if status = [33, 33] then
          match gitParseLines rest with
          | Except.error e => Except.error e
          | Except.ok pats => Except.ok (rstripByte 47 name :: pats)
        else gitParseLines rest

/-- data.py get_git_ignore_patterns. -/
def getGitIgnorePatterns (call : Except CalledProcessErrorM (List ℕ)) :
    Except PyRuntimeError (Bool × List (List ℕ)) :=
  match call with
  | Except.error _ => Except.ok (false, [])
  | Except.ok stdout =>
    if stdout = [] then Except.ok (true, [])
    else
      match gitParseLines (splitOnByte 0 stdout) with
      | Except.error e => Except.error e
      | Except.ok pats => Except.ok (true, pats)

/-- data.py get_hg_ignore_patterns. -/
def getHgIgnorePatterns (call : Except CalledProcessErrorM (List ℕ)) :
    Except PyRuntimeError (Bool × List (List ℕ)) :=
  match call with
  | Except.error _ => Except.ok (false, [])
  | Except.ok stdout =>
    if stdout = [] then Except.ok (true, [])
    else Except.ok (true, (splitOnByte 0 stdout).filter (fun l => !l.isEmpty))

structure SvnWcStatus where
  item : String
deriving DecidableEq

structure SvnEntry where
  path : String
  wcStatus : Option SvnWcStatus
deriving DecidableEq

structure SvnXml where
  target : Option (List SvnEntry)
deriving DecidableEq

/-- The svn stdout as seen after the subprocess: empty output, output
that ElementTree.fromstring rejects, or a parsed XML tree. -/
inductive SvnStdout where
  | empty
  | malformed
  | xml (x : SvnXml)
deriving DecidableEq

/-- path.encode(): the UTF-8 bytes of the path, abstracted to code
points. -/
def strBytes (s : String) : List ℕ := s.toList.map Char.toNat

/-- The svn entry loop: the wc-status child must exist (assert), entries
whose status item is ignored contribute their encoded path. -/
def svnCollect : List SvnEntry → Except PyRuntimeError (List (List ℕ))
  | [] => Except.ok []
  | e :: rest =>
    match e.wcStatus with
    | none => Except.error PyRuntimeError.assertionError
    | some w =>
      match svnCollect rest with
      | Except.error err => Except.error err
      | Except.ok pats =>
        Except.ok (if w.item = "ignored" then strBytes e.path :: pats else pats)

/-- data.py get_svn_ignore_patterns. -/
def getSvnIgnorePatterns (call : Except CalledProcessErrorM SvnStdout) :
    Except PyRuntimeError (Bool × List (List ℕ)) :=
  match call with
  | Except.error _ => Except.ok (false, [])
  | Except.ok SvnStdout.empty => Except.ok (true, [])
  | Except.ok SvnStdout.malformed => Except.error PyRuntimeError.xmlParseError
  | Except.ok (SvnStdout.xml x) =>
    match x.target with
    | none => Except.error PyRuntimeError.assertionError
    | some entries =>
      match svnCollect entries with
      | Except.error e => Except.error e
      | Except.ok pats => Except.ok (true, pats)

/-- The working copy environment a scan sees: which VCS folder is
detected (vcs_detected, exceptions already mapped to False) and the
outcome of each VCS status subprocess. -/
structure VcsEnv where
  detected : VCSKind → Bool
  gitCall : Except CalledProcessErrorM (List ℕ)
  hgCall : Except CalledProcessErrorM (List ℕ)
  svnCall : Except CalledProcessErrorM SvnStdout

/-- Dispatch of VCS_IGNORE_PATTERNS_METHODS. -/
def runVcsMethod (env : VcsEnv) :
    VCSKind → Except PyRuntimeError (Bool × List (List ℕ))
  | VCSKind.git => getGitIgnorePatterns env.gitCall
  | VCSKind.hg => getHgIgnorePatterns env.hgCall
  | VCSKind.svn => getSvnIgnorePatterns env.svnCall

/-- Whether the status subprocess of the given VCS failed
(CalledProcessError). -/
def vcsCallFailed (env : VcsEnv) : VCSKind → Bool
  | VCSKind.git => match env.gitCall with
    | Except.error _ => true
    | Except.ok _ => false
  | VCSKind.hg => match env.hgCall with
    | Except.error _ => true
    | Except.ok _ => false
  | VCSKind.svn => match env.svnCall with
    | Except.error _ => true
    | Except.ok _ => false

/-- data.py get_vcs_ignore_patterns loop body over the method table (dict
insertion order git, hg, svn): a detected VCS is tried; on success its
patterns are returned, otherwise the next VCS is tried. -/
def vcsIgnoreLoop (env : VcsEnv) :
    List VCSKind → Except PyRuntimeError (List (List ℕ))
  | [] => Except.ok []
  | v :: rest =>
    if env.detected v then
      match runVcsMethod env v with
      | Except.error e => Except.error e
      | Except.ok (true, pats) => Except.ok pats
      | Except.ok (false, _) => vcsIgnoreLoop env rest
    else vcsIgnoreLoop env rest

/-- data.py get_vcs_ignore_patterns. -/
def getVcsIgnorePatternsM (env : VcsEnv) :
    Except PyRuntimeError (List (List ℕ)) :=
  vcsIgnoreLoop env [VCSKind.git, VCSKind.hg, VCSKind.svn]

/-- The same environment with one VCS no longer detected. -/
def undetectVcs (env : VcsEnv) (v : VCSKind) : VcsEnv :=
  ⟨fun w => if w = v then false else env.detected w,
   env.gitCall, env.hgCall, env.svnCall⟩

theorem runVcsMethod_failed (env : VcsEnv) (v : VCSKind)
    (h : vcsCallFailed env v = true) :
    runVcsMethod env v = Except.ok (false, []) := by
  cases v with
  | git =>
    cases hc : env.gitCall with
    | error e => simp [runVcsMethod, getGitIgnorePatterns, hc]
    | ok s => simp [vcsCallFailed, hc] at h
  | hg =>
    cases hc : env.hgCall with
    | error e => simp [runVcsMethod, getHgIgnorePatterns, hc]
    | ok s => simp [vcsCallFailed, hc] at h
  | svn =>
    cases hc : env.svnCall with
    | error e => simp [runVcsMethod, getSvnIgnorePatterns, hc]
    | ok s => simp [vcsCallFailed, hc] at h

theorem runVcsMethod_undetect (env : VcsEnv) (v w : VCSKind) :
    runVcsMethod (undetectVcs env v) w = runVcsMethod env w := by
  cases w <;> rfl

theorem vcsIgnoreLoop_undetect_failed (env : VcsEnv) (v : VCSKind)
    (hfail : vcsCallFailed env v = true) :
    ∀ ks : List VCSKind,
      vcsIgnoreLoop env ks = vcsIgnoreLoop (undetectVcs env v) ks := by
  intro ks
  induction ks with
  | nil => rfl
  | cons k rest ih =>
    simp only [vcsIgnoreLoop]
    by_cases hk : k = v
    · subst hk
      have hdet2 : (undetectVcs env k).detected k = false := by
        simp [undetectVcs]
      rw [hdet2]
      simp only [Bool.false_eq_true, if_false]
      by_cases hdet : env.detected k = true
      · rw [if_pos hdet, runVcsMethod_failed env k hfail]
        exact ih
      · rw [if_neg hdet]
        exact ih
    · have hdet2 : (undetectVcs env v).detected k = env.detected k := by
        simp [undetectVcs, hk]
      rw [hdet2, runVcsMethod_undetect]
      by_cases hdet : env.detected k = true
      · rw [if_pos hdet, if_pos hdet]
        cases runVcsMethod env k with
        | error e => rfl
        | ok r =>
          rcases r with ⟨b, pats⟩
          cases b
          · exact ih
          · rfl
      · rw [if_neg hdet, if_neg hdet]
        exact ih

theorem vcsIgnoreLoop_allfail (env : VcsEnv)
    (h : ∀ w, env.detected w = true → vcsCallFailed env w = true) :
    ∀ ks : List VCSKind, vcsIgnoreLoop env ks = Except.ok [] := by
  intro ks
  induction ks with
  | nil => rfl
  | cons k rest ih =>
    simp only [vcsIgnoreLoop]
    by_cases hdet : env.detected k = true
    · rw [if_pos hdet, runVcsMethod_failed env k (h k hdet)]
      exact ih
    · rw [if_neg hdet]
      exact ih

/-- C8: when the status subprocess of a detected VCS fails, the scan is
not aborted: get_vcs_ignore_patterns behaves exactly as if that VCS had
not been detected (the failing VCS contributes no patterns and raises
nothing), and when every detected VCS fails the function returns the
empty pattern list normally. -/
theorem getVcsIgnorePatterns_spec (env : VcsEnv) (v : VCSKind)
    (hdet : env.detected v = true) (hfail : vcsCallFailed env v = true) :
    getVcsIgnorePatternsM env = getVcsIgnorePatternsM (undetectVcs env v) ∧
    ((∀ w, env.detected w = true → vcsCallFailed env w = true) →
      getVcsIgnorePatternsM env = Except.ok []) := by
  constructor
  · exact vcsIgnoreLoop_undetect_failed env v hfail _
  · intro hall
    exact vcsIgnoreLoop_allfail env hall _

/-- A working copy with all three VCS folders present whose status
subprocesses all fail. -/
def vcsEnvAllFail : VcsEnv :=
  ⟨fun _ => true, Except.error ⟨1, []⟩, Except.error ⟨1, []⟩,
   Except.error ⟨1, []⟩⟩

/-- Witness for getVcsIgnorePatterns_spec: with every VCS failing, the
function still returns normally with no patterns. -/
theorem getVcsIgnorePatterns_spec_witness :
    getVcsIgnorePatternsM vcsEnvAllFail =
      getVcsIgnorePatternsM (undetectVcs vcsEnvAllFail VCSKind.git) ∧
    getVcsIgnorePatternsM vcsEnvAllFail = Except.ok [] :=
  ⟨(getVcsIgnorePatterns_spec vcsEnvAllFail VCSKind.git rfl rfl).1,
   (getVcsIgnorePatterns_spec vcsEnvAllFail VCSKind.git rfl rfl).2
     (fun w _ => by cases w <;> rfl)⟩
